import Mathlib

/-!
Verification development for the `web-file-server` repository.

The repository serves files over HTTP: path resolution with root containment,
dotfile and symlink policies, ETag / conditional requests, byte ranges,
Accept-Encoding negotiation against pre-compressed siblings, and streaming or
buffered bodies.

The embedding below translates the TypeScript sources into executable Lean
definitions.  JavaScript strings are modelled by `String` with the heavy
lifting done on `List Char`; JavaScript numbers are modelled by `Nat`/`Int`
(the code only manipulates sizes, offsets and millisecond timestamps, all of
which are exact integers below 2^53, where JS float arithmetic is exact) and
by exact decimals (`Dec`) for Accept-Encoding quality values.  JavaScript runtime builtins with
no source in the repository (SHA-256, `Date` parsing and formatting, `RegExp`
matching) are threaded through a `JsEnv` record of function parameters, so
every theorem proved over all environments holds in particular for the real
builtins.
-/

set_option autoImplicit false

/-! ### JavaScript-style character/string primitives -/

/-- Splitting a character list at every occurrence of `c`, mirroring the
semantics of JavaScript `String.prototype.split` with a one-character
separator: the result is never empty, and empty fields are kept. -/
def splitCh (c : Char) : List Char → List (List Char)
  | [] => [[]]
  | x :: xs =>
    match splitCh c xs with
    | r :: rs => if x = c then [] :: r :: rs else (x :: r) :: rs
    | [] => [[x]]

/-- Joining a list of fields with the separator `c`, inverse of `splitCh`. -/
def joinWith (c : Char) : List (List Char) → List Char
  | [] => []
  | [p] => p
  | p :: q :: rest => p ++ c :: joinWith c (q :: rest)

/-- Whitespace trimming on both ends, mirroring `String.prototype.trim`. -/
def trimCh (l : List Char) : List Char :=
  ((l.dropWhile Char.isWhitespace).reverse.dropWhile Char.isWhitespace).reverse

/-- Decimal-digit test, the Boolean test `Char.isDigit` written on code points. -/
def isDigitCh (c : Char) : Bool := 48 ≤ c.toNat && c.toNat ≤ 57

/-- Greedy span of decimal digits at the front of a character list. -/
def spanDigits (l : List Char) : List Char × List Char :=
  (l.takeWhile isDigitCh, l.dropWhile isDigitCh)

/-- Numeric value of a list of decimal digit characters (most significant
first), with an accumulator as JavaScript's parsing loop maintains. -/
def digitsToNat (acc : Nat) : List Char → Nat
  | [] => acc
  | c :: cs => digitsToNat (acc * 10 + (c.toNat - 48)) cs

/-- The decimal digit character for a value `0 ≤ d ≤ 9`. -/
def digitChar10 : Nat → Char
  | 0 => '0' | 1 => '1' | 2 => '2' | 3 => '3' | 4 => '4'
  | 5 => '5' | 6 => '6' | 7 => '7' | 8 => '8' | _ => '9'

/-- Decimal rendering of a natural number, fuel-structured so that it reduces
definitionally; `renderNat` supplies sufficient fuel. -/
def renderNatAux : Nat → Nat → List Char
  | 0, _ => []
  | fuel + 1, n =>
    if n < 10 then [digitChar10 n]
    else renderNatAux fuel (n / 10) ++ [digitChar10 (n % 10)]

/-- Decimal digit string of a natural number. -/
def renderNat (n : Nat) : List Char := renderNatAux (n + 1) n

/-- JavaScript `parseInt(s, 10)`: skip leading whitespace, read an optional
sign and then a non-empty greedy run of digits, ignoring any trailing
characters; `none` models `NaN`. -/
def jsParseIntL (l : List Char) : Option Int :=
  match l.dropWhile Char.isWhitespace with
  | [] => none
  | c :: r =>
    if c = '-' then
      if r.takeWhile isDigitCh = [] then none
      else some (-(digitsToNat 0 (r.takeWhile isDigitCh) : Int))
    else if c = '+' then
      if r.takeWhile isDigitCh = [] then none
      else some (digitsToNat 0 (r.takeWhile isDigitCh) : Int)
    else
      if (c :: r).takeWhile isDigitCh = [] then none
      else some (digitsToNat 0 ((c :: r).takeWhile isDigitCh) : Int)

/-- JavaScript `parseInt` over an optional string: `parseInt(undefined)` is
`NaN`. -/
def jsParseInt : Option (List Char) → Option Int
  | none => none
  | some l => jsParseIntL l

/-- An exact decimal number `mant / 10 ^ scale`.  The decimal literals a
`;q=` parameter can carry are represented exactly, and comparisons are done
by cross-multiplication of integers, which agrees with the real-number (and,
at this granularity, the JavaScript float) ordering. -/
structure Dec where
  mant : Int
  scale : Nat
deriving DecidableEq

/-- Value-level ordering of decimals by cross-multiplication
(`a ≤ b` as real numbers). -/
def Dec.leb (a b : Dec) : Bool :=
  decide (a.mant * 10 ^ b.scale ≤ b.mant * 10 ^ a.scale)

/-- Value-level strict positivity of a decimal (` 0 < a` as real numbers,
which holds exactly when the mantissa is positive). -/
def Dec.posb (a : Dec) : Bool :=
  decide (0 < a.mant)

/-- Value-level zero test of a decimal (the JavaScript falsiness test `!x`
on a number, `NaN` aside). -/
def Dec.isZero (a : Dec) : Bool :=
  decide (a.mant = 0)

/-- Fractional value of a digit run read after a decimal point. -/
def fracVal (ds : List Char) : Dec :=
  ⟨(digitsToNat 0 ds : Int), ds.length⟩

/-- JavaScript `parseFloat`: skip leading whitespace, optional sign, then
digits with an optional fractional part, ignoring trailing characters.
Exponent notation is not modelled (the header grammar in scope never uses
it); `none` models `NaN`. -/
def jsParseFloatL (l : List Char) : Option Dec :=
  let l1 := l.dropWhile Char.isWhitespace
  let sgn : Int := if l1.head? = some '-' then -1 else 1
  let l2 := if l1.head? = some '-' ∨ l1.head? = some '+' then l1.tail else l1
  let ip := l2.takeWhile isDigitCh
  let rest := l2.dropWhile isDigitCh
  if ip = [] then
    match rest with
    | '.' :: r =>
      let fs := r.takeWhile isDigitCh
      if fs = [] then none
      else some ⟨sgn * (digitsToNat 0 fs : Int), fs.length⟩
    | _ => none
  else
    match rest with
    | '.' :: r =>
      let fs := r.takeWhile isDigitCh
      some ⟨sgn * ((digitsToNat 0 ip : Int) * 10 ^ fs.length
              + (digitsToNat 0 fs : Int)), fs.length⟩
    | _ => some ⟨sgn * (digitsToNat 0 ip : Int), 0⟩

/-- Replacing the first occurrence of `pat` in a list, mirroring JavaScript
`String.prototype.replace` with a plain-string (or one-match regex) pattern.
An empty pattern leaves the list unchanged (the sources never pass one). -/
def replaceFirstL (pat : List Char) : List Char → List Char
  | [] => []
  | c :: rest =>
    if pat ≠ [] ∧ pat.isPrefixOf (c :: rest) then (c :: rest).drop pat.length
    else c :: replaceFirstL pat rest

/-! ### POSIX path model (Node `path.resolve` / `path.relative`) -/

/-- One normalization pass over path segments for an absolute path: empty and
`.` segments vanish, `..` pops the last kept segment (and is dropped at the
root, as `path.resolve` never climbs above `/`), every other segment is kept.
`acc` is the stack of kept segments in reverse order. -/
def goAbs (acc : List (List Char)) : List (List Char) → List (List Char)
  | [] => acc.reverse
  | s :: rest =>
    if s = [] ∨ s = ['.'] then goAbs acc rest
    else if s = ['.', '.'] then goAbs (acc.drop 1) rest
    else goAbs (s :: acc) rest

/-- Normalization of the segments of an absolute path. -/
def normSegs (l : List (List Char)) : List (List Char) := goAbs [] l

/-- A segment that survives normalization: non-empty, not a dot segment, and
free of separators. -/
def CleanSeg (s : List Char) : Prop :=
  s ≠ [] ∧ s ≠ ['.'] ∧ s ≠ ['.', '.'] ∧ '/' ∉ s

/-- The right-to-left accumulation loop of `path.resolve`: paths are prepended
(joined by `/`) until one of them is absolute; the Boolean records whether an
absolute path anchored the chain. -/
def chainCh : List (List Char) → List Char × Bool
  | [] => ([], false)
  | p :: rest =>
    let (acc, anchored) := chainCh rest
    if anchored then (acc, anchored)
    else (p ++ '/' :: acc, decide (p.head? = some '/'))

/-- Node's POSIX `path.resolve(…ps)` with the process working directory `cwd`
as the final fallback: take the effective concatenation from the last
absolute argument onwards and normalize it as an absolute path. -/
def posixResolve (cwd : String) (ps : List String) : String :=
  let eff := (chainCh ((cwd :: ps).map String.data)).1
  ⟨'/' :: joinWith '/' (normSegs (splitCh '/' eff))⟩

/-- The non-empty `/`-separated segments of a path string. -/
def pathSegsL (s : String) : List (List Char) :=
  (splitCh '/' s.data).filter (· ≠ [])

/-- Length of the longest common prefix of two segment lists. -/
def commonLen : List (List Char) → List (List Char) → Nat
  | a :: as, b :: bs => if a = b then commonLen as bs + 1 else 0
  | _, _ => 0

/-- Node's POSIX `path.relative(from, to)` (with `cwd` for the inner
`resolve` calls): resolve both arguments, drop the common segment prefix,
then climb with `..` segments and descend into the remainder. -/
def posixRelative (cwd from_ to_ : String) : String :=
  let f := posixResolve cwd [from_]
  let t := posixResolve cwd [to_]
  if f = t then ""
  else
    let fsegs := pathSegsL f
    let tsegs := pathSegsL t
    let k := commonLen fsegs tsegs
    ⟨joinWith '/' (List.replicate (fsegs.length - k) ['.', '.'] ++ tsegs.drop k)⟩

/-- Value of a hexadecimal digit, as `decodeURIComponent` reads escapes. -/
def hexVal (c : Char) : Option Nat :=
  if 48 ≤ c.toNat ∧ c.toNat ≤ 57 then some (c.toNat - 48)
  else if 65 ≤ c.toNat ∧ c.toNat ≤ 70 then some (c.toNat - 55)
  else if 97 ≤ c.toNat ∧ c.toNat ≤ 102 then some (c.toNat - 87)
  else none

/-- Percent-decoding a character list: `%` must be followed by two hex digits
or decoding fails (`decodeURIComponent` throws `URIError`).  Escapes are
decoded bytewise; the additional multi-byte UTF-8 validation that
`decodeURIComponent` performs is not modelled (it can only turn further
inputs into failures, which the path resolver also rejects). -/
def pdAux : List Char → Option (List Char)
  | [] => some []
  | '%' :: rest =>
    match rest with
    | c1 :: c2 :: r2 =>
      match hexVal c1, hexVal c2 with
      | some h1, some h2 => (pdAux r2).map (fun t => Char.ofNat (h1 * 16 + h2) :: t)
      | _, _ => none
    | _ => none
  | c :: rest => (pdAux rest).map (c :: ·)

/-- JavaScript `decodeURIComponent`, `none` modelling a thrown `URIError`. -/
def percentDecode (s : String) : Option String :=
  (pdAux s.data).map (fun l => ⟨l⟩)

/-- Translated from `resolveFilePath` in `src/fs-utils.ts` (the same function
also appears inline in `src/index.ts`): percent-decode the pathname, strip
leading slashes, resolve against the root, and reject when the path relative
to the root starts with `..` or is absolute.  `none` models
`{ filePath: "", isValid: false }`. -/
def resolveFilePath (cwd pathname root : String) : Option String :=
  match percentDecode pathname with
  | none => none
  | some decodedPath =>
    let relativePath : String := ⟨decodedPath.data.dropWhile (· = '/')⟩
    let absoluteRoot := posixResolve cwd [root]
    let requestedPath := posixResolve cwd [absoluteRoot, relativePath]
    let relativeToRoot := posixRelative cwd absoluteRoot requestedPath
    if ['.', '.'].isPrefixOf relativeToRoot.data ∨
        posixResolve cwd [relativeToRoot] = relativeToRoot then
      none
    else
      some requestedPath

/-! ### Filesystem model

The filesystem collaborator (`stat`, `lstat`, `open`/`read`, `readFile`) is
modelled as a partial map from absolute path strings to entries.  `stat`
follows symbolic links, so a symlink entry carries the `Option Stats` that
following it would produce (`none` for a broken link); `lstat` does not
follow and reports the entry kind itself. -/

/-- File metadata as used by the sources: byte size, `mtime.getTime()` in
milliseconds, and the `isDirectory()` flag (`isFile()` is its negation for
the entry kinds the code distinguishes). -/
structure Stats where
  size : Nat
  mtimeMs : Int
  isDir : Bool
deriving DecidableEq, Repr

/-- A filesystem entry: regular file with contents, directory, or symbolic
link (with the stats of its target, `none` when the link is broken). -/
inductive FsEntry where
  | file (content : List Nat) (mtimeMs : Int)
  | dir
  | symlink (target : Option Stats)
deriving DecidableEq

/-- The filesystem: a map from absolute paths to entries. -/
def FS : Type := String → Option FsEntry

/-- Node `fs.stat`: follows symlinks; fails on missing entries and broken
links. -/
def statFs (fs : FS) (p : String) : Option Stats :=
  match fs p with
  | none => none
  | some (.file c m) => some ⟨c.length, m, false⟩
  | some .dir => some ⟨0, 0, true⟩
  | some (.symlink t) => t

/-- Reading a regular file's bytes (`fs.open` + reads, or `readFile`);
`none` models an I/O failure. -/
def readBytes (fs : FS) (p : String) : Option (List Nat) :=
  match fs p with
  | some (.file c _) => some c
  | _ => none

/-- Translated from `checkForSymlink` in `src/fs-utils.ts`: `lstat` the path;
a symlink yields the 404 `FileServerError` (information-hiding), a failed
`lstat` yields the 500 error, anything else passes.  The result is the
(status, message) of the `FileServerError`, `none` when safe. -/
def checkForSymlink (fs : FS) (filePath : String) : Option (Nat × String) :=
  match fs filePath with
  | none => some (500, "Unable to verify file security")
  | some (.symlink _) => some (404, "Not Found")
  | some _ => none

/-! ### HTTP response model -/

/-- A response body: error/status text or raw file bytes. -/
inductive Body where
  | text (s : String)
  | bytes (l : List Nat)
deriving DecidableEq

/-- The observable part of a `Response`: status, header list, body (`none`
models a `null` body). -/
structure HttpResponse where
  status : Nat
  headers : List (String × String)
  body : Option Body
deriving DecidableEq

/-- Object-spread semantics for header records: a later entry overwrites an
earlier entry with the same key, otherwise it is appended. -/
def putH (hs : List (String × String)) (kv : String × String) :
    List (String × String) :=
  if hs.any (fun p => p.1 = kv.1) then
    hs.map (fun p => if p.1 = kv.1 then kv else p)
  else hs ++ [kv]

/-- Merging `extra` over `base`, as `{ ...base, ...extra }`. -/
def mergeH (base extra : List (String × String)) : List (String × String) :=
  extra.foldl putH base

/-- Header lookup on a response. -/
def getHeader (r : HttpResponse) (k : String) : Option String :=
  (r.headers.find? (fun p => p.1 = k)).map (fun p => p.2)

/-- JavaScript truthiness of a nullable string: `null` and `""` are falsy. -/
def jsTruthy : Option String → Bool
  | none => false
  | some s => s ≠ ""

/-! ### Source-translated request-processing functions -/

/-- Translated from `sanitizeHeader` in `src/http-utils.ts`: `null` for
missing/empty values, strip NUL/CR/LF, truncate to 8 KiB. -/
def sanitizeHeader : Option String → Option String
  | none => none
  | some v =>
    if v = "" then none
    else
      let sanitized : String :=
        ⟨v.data.filter (fun c => c ≠ '\x00' ∧ c ≠ '\r' ∧ c ≠ '\n')⟩
      some (if 8192 < sanitized.length then ⟨sanitized.data.take 8192⟩
            else sanitized)

/-- The dotfile policy option. -/
inductive Dotfiles where
  | allow
  | deny
  | ignore
deriving DecidableEq

/-- Translated from `shouldServeDotfile` in `src/fs-utils.ts` (the current
module version): a path is a dotfile if ANY non-empty `/`-segment starts
with `.`; `allow` serves it, `deny` and `ignore` both refuse. -/
def shouldServeDotfile (filePath : String) (dotfiles : Dotfiles) : Bool :=
  let pathParts := (splitCh '/' filePath.data).filter (fun part => part ≠ [])
  let isDotfile := pathParts.any (fun part => ['.'].isPrefixOf part)
  if !isDotfile then true
  else
    match dotfiles with
    | .allow => true
    | .deny => false
    | .ignore => false

/-- Runtime builtins used by the sources but defined outside them, passed as
an environment: the process working directory (for `path.resolve`), `new
Date(string)` parsing to epoch milliseconds (`none` = invalid date),
`Date#toUTCString` formatting, SHA-256 hex digests, and `RegExp#test`. -/
structure JsEnv where
  cwd : String
  parseDate : String → Option Int
  fmtDate : Int → String
  sha256hex : String → String
  regexTest : String → String → Bool

/-- The MIME table from `src/index.ts` / the MIME module. -/
def MIME_TYPES : List (String × String) :=
  [(".html", "text/html"), (".htm", "text/html"), (".css", "text/css"),
   (".js", "text/javascript"), (".mjs", "text/javascript"),
   (".txt", "text/plain"), (".xml", "text/xml"), (".json", "application/json"),
   (".png", "image/png"), (".jpg", "image/jpeg"), (".jpeg", "image/jpeg"),
   (".gif", "image/gif"), (".svg", "image/svg+xml"), (".webp", "image/webp"),
   (".ico", "image/x-icon"),
   (".woff", "font/woff"), (".woff2", "font/woff2"), (".ttf", "font/ttf"),
   (".otf", "font/otf"), (".eot", "application/vnd.ms-fontobject"),
   (".pdf", "application/pdf"), (".zip", "application/zip"),
   (".tar", "application/x-tar"), (".gz", "application/gzip"),
   (".mp4", "video/mp4"), (".webm", "video/webm"), (".mp3", "audio/mpeg"),
   (".wav", "audio/wav"), (".ogg", "audio/ogg")]

/-- Node `path.extname`: the extension of the final path segment, empty for
leading-dot-only basenames and for `..`. -/
def extnameL (p : List Char) : List Char :=
  let base := (splitCh '/' p).getLastD []
  if base = ['.', '.'] then []
  else
    match splitCh '.' base with
    | [] => []
    | [_] => []
    | first :: rest =>
      if rest.length = 1 ∧ first = [] then []
      else '.' :: rest.getLastD []

/-- Translated from `getMimeType`: extension lookup with an
`application/octet-stream` fallback. -/
def getMimeType (filePath : String) : String :=
  let ext : String := ⟨(extnameL filePath.data).map Char.toLower⟩
  match MIME_TYPES.find? (fun p => p.1 = ext) with
  | some p => p.2
  | none => "application/octet-stream"

/-- Translated from `generateETag`: SHA-256 over `size-mtimeMs-path`, first
16 hex characters, quoted, `W/`-prefixed when weak. -/
def generateETag (env : JsEnv) (stats : Stats) (filePath : String)
    (weak : Bool) : String :=
  let input := Nat.repr stats.size ++ "-" ++ Int.repr stats.mtimeMs ++ "-" ++
    filePath
  let etag : String := ⟨(env.sha256hex input).data.take 16⟩
  if weak then "W/\"" ++ etag ++ "\"" else "\"" ++ etag ++ "\""

/-- The `cacheControl` option: a single directive or (pattern → directive)
entries in insertion order. -/
inductive CacheControlCfg where
  | str (s : String)
  | patterns (l : List (String × String))

/-- Translated from `getCacheControl`: a global string is used verbatim
(empty string is falsy and yields nothing), otherwise the first matching
pattern wins. -/
def getCacheControl (env : JsEnv) (filePath : String) :
    Option CacheControlCfg → Option String
  | none => none
  | some (.str s) => if s = "" then none else some s
  | some (.patterns l) =>
    (l.find? (fun pv => env.regexTest pv.1 filePath)).map (fun pv => pv.2)

/-- A successfully parsed byte range: start, inclusive end, and content
length, as returned by `parseRange`. -/
structure RangeSpec where
  start : Nat
  end_ : Nat
  contentLength : Nat
deriving DecidableEq, Repr

/-- Outcome of `parseRange`: the thrown `MULTIPLE_RANGES_NOT_SUPPORTED`
error, a `null` return, or a parsed range. -/
inductive ParseRangeResult where
  | multiple
  | invalid
  | ok (r : RangeSpec)
deriving DecidableEq, Repr

/-- The shared tail of `parseRange` (`src/http-utils.ts` lines 109-121):
bounds validation followed by clamping the end to `fileSize - 1`. -/
def parseRangeFinish (fileSize : Nat) (start endv : Int) : ParseRangeResult :=
  if (fileSize : Int) ≤ start ∨ endv < start then .invalid
  else
    let e2 := min endv ((fileSize : Int) - 1)
    .ok ⟨start.toNat, e2.toNat, (e2 - start + 1).toNat⟩

/-- Translated from `parseRange` in `src/http-utils.ts` (the current module
version): empty files admit no range; multiple comma-separated ranges throw
the 416 error; suffix (`-N`), open-ended (`N-`) and closed (`N-M`) forms are
validated and the end is clamped to the file size. -/
def parseRange (rangeHeader : String) (fileSize : Nat) : ParseRangeResult :=
  if fileSize = 0 then .invalid
  else
    let ranges := splitCh ',' (replaceFirstL "bytes=".data rangeHeader.data)
    if 1 < ranges.length then .multiple
    else
      let range := trimCh (ranges.headD [])
      if range = [] then .invalid
      else
        let parts := splitCh '-' range
        let startStr := parts.headD []
        let endStr := parts[1]?
        if startStr = [] ∧ endStr ≠ some [] then
          match jsParseInt endStr with
          | none => .invalid
          | some suffixLength =>
            if suffixLength ≤ 0 then .invalid
            else parseRangeFinish fileSize
              (max 0 ((fileSize : Int) - suffixLength)) ((fileSize : Int) - 1)
        else if startStr ≠ [] ∧ endStr = some [] then
          match jsParseIntL startStr with
          | none => .invalid
          | some start =>
            if start < 0 then .invalid
            else parseRangeFinish fileSize start ((fileSize : Int) - 1)
        else if startStr ≠ [] ∧ endStr ≠ some [] then
          match jsParseIntL startStr, jsParseInt endStr with
          | some start, some endv =>
            if start < 0 ∨ endv < 0 then .invalid
            else parseRangeFinish fileSize start endv
          | _, _ => .invalid
        else .invalid

/-- A parsed `Accept-Encoding` token with its quality. -/
structure EncTok where
  encoding : String
  quality : Dec
deriving DecidableEq

/-- Insertion step of a stable descending sort by quality, matching the
stable `Array.prototype.sort` with comparator `(a, b) => b.quality -
a.quality`: an element moves ahead only of strictly lower qualities. -/
def insertDesc (x : EncTok) : List EncTok → List EncTok
  | [] => [x]
  | y :: ys => if y.quality.leb x.quality then x :: y :: ys
               else y :: insertDesc x ys

/-- Stable descending sort by quality. -/
def sortDescQ : List EncTok → List EncTok
  | [] => []
  | x :: xs => insertDesc x (sortDescQ xs)

/-- Translated from `parseAcceptEncoding` in `src/http-utils.ts` (identical
in `src/index.ts`): split on commas, read an optional `;q=` weight — note
the source computes `parseFloat(...) || 1`, so an unparsable OR ZERO weight
falls back to 1 — drop non-positive weights, stable-sort by descending
weight, and return the first token in the server's supported list. -/
def parseAcceptEncoding (acceptEncoding : Option String)
    (supportedEncodings : List String) : Option String :=
  match acceptEncoding with
  | none => none
  | some s =>
    if s = "" then none
    else
      let encodings := (splitCh ',' s.data).map (fun enc =>
        let parts := splitCh ';' (trimCh enc)
        let q : List Char := (parts[1]?).getD "q=1".data
        let quality : Dec :=
          match jsParseFloatL (replaceFirstL "q=".data q) with
          | none => ⟨1, 0⟩
          | some v => if v.isZero then ⟨1, 0⟩ else v
        EncTok.mk ⟨trimCh (parts.headD [])⟩ quality)
      let kept := encodings.filter (fun e => e.quality.posb)
      let sorted := sortDescQ kept
      (sorted.find? (fun e => supportedEncodings.contains e.encoding)).map
        (fun e => e.encoding)

/-- The compressed-sibling extension table of `findPrecompressedFile`. -/
def encodingExts : List (String × String) :=
  [("br", ".br"), ("gzip", ".gz"), ("deflate", ".gz")]

/-- Translated from `findPrecompressedFile`: look for `<path><ext>` and
return it when `stat` succeeds. -/
def findPrecompressedFile (fs : FS) (filePath encoding : String) :
    Option String :=
  match (encodingExts.find? (fun p => p.1 = encoding)).map (fun p => p.2) with
  | none => none
  | some ext =>
    match statFs fs (filePath ++ ext) with
    | some _ => some (filePath ++ ext)
    | none => none

/-- The `...(etagValue && { ETag: etagValue })` spread: present only for a
truthy ETag. -/
def etagEntry : Option String → List (String × String)
  | some e => if e = "" then [] else [("ETag", e)]
  | none => []

/-- Translated from `handleRangeRequest` in `src/http-utils.ts`: sanitize
the `Range` header; absence (or empty after sanitizing) means no range; a
multi-range throw becomes a bare 416 with the error message; an invalid
range becomes a 416 with `Content-Range: bytes */size`, the ETag if any, and
the caller headers; a valid parse is returned for the pipeline. -/
def handleRangeRequest (rangeHeaderRaw : Option String) (fileSize : Nat)
    (etagValue : Option String) (headers : List (String × String)) :
    Option RangeSpec × Option HttpResponse :=
  match sanitizeHeader rangeHeaderRaw with
  | none => (none, none)
  | some hv =>
    if hv = "" then (none, none)
    else
      match parseRange hv fileSize with
      | .multiple =>
        (none, some ⟨416, [], some (.text
          "Multiple ranges are not supported. Please request one range at a time.")⟩)
      | .invalid =>
        (none, some ⟨416,
          mergeH ([("Content-Range", "bytes */" ++ Nat.repr fileSize)] ++
            etagEntry etagValue) headers,
          some (.text "Range Not Satisfiable")⟩)
      | .ok r => (some r, none)

/-- The client-token match of `handleConditionalRequests`: the
comma-separated, trimmed `If-None-Match` list contains the ETag verbatim or
`*`. -/
def etagMatches (inmValue etagValue : String) : Bool :=
  let clientETags := (splitCh ',' inmValue.data).map trimCh
  clientETags.contains etagValue.data || clientETags.contains ['*']

/-- A 304 response with the given headers and a `null` body. -/
def mk304 (headers : List (String × String)) : HttpResponse :=
  ⟨304, headers, none⟩

/-- The `If-Modified-Since` half of `handleConditionalRequests`: runs only
when `If-None-Match` is falsy; the file mtime is truncated to whole seconds
and compared against the parsed client date (an unparsable date never
matches). -/
def condIMS (env : JsEnv) (ifNoneMatch ifModifiedSince : Option String)
    (mtimeMs : Int) (etagValue : Option String)
    (headers : List (String × String)) : Option HttpResponse :=
  if jsTruthy ifModifiedSince && !jsTruthy ifNoneMatch then
    match ifModifiedSince with
    | none => none
    | some imsv =>
      match env.parseDate imsv with
      | none => none
      | some clientMs =>
        if mtimeMs - mtimeMs.emod 1000 ≤ clientMs then
          some (mk304 (mergeH ([("Last-Modified", env.fmtDate mtimeMs)] ++
            etagEntry etagValue) headers))
        else none
  else none

/-- Translated from `handleConditionalRequests` in `src/http-utils.ts`:
sanitize both conditional headers; with a truthy `If-None-Match` and a
truthy ETag, a token match yields 304 and a mismatch yields the
`If-Modified-Since` check — which is a no-op there, since it requires a
falsy `If-None-Match`. -/
def handleConditionalRequests (env : JsEnv) (inm ims : Option String)
    (mtimeMs : Int) (etagValue : Option String)
    (headers : List (String × String)) : Option HttpResponse :=
  let ifNoneMatch := sanitizeHeader inm
  let ifModifiedSince := sanitizeHeader ims
  match ifNoneMatch, etagValue with
  | some s, some e =>
    if s ≠ "" ∧ e ≠ "" then
      if etagMatches s e then
        some (mk304 (mergeH ([("ETag", e),
          ("Last-Modified", env.fmtDate mtimeMs)]) headers))
      else condIMS env ifNoneMatch ifModifiedSince mtimeMs etagValue headers
    else condIMS env ifNoneMatch ifModifiedSince mtimeMs etagValue headers
  | _, _ => condIMS env ifNoneMatch ifModifiedSince mtimeMs etagValue headers

/-! ### Body production (src/response.ts) -/

/-- The fixed 64 KiB chunk size of the streaming reader. -/
def chunkSize : Nat := 64 * 1024

/-- One positional read: `fileHandle.read(buffer, 0, len, pos)` returns the
bytes `[pos, pos+len)` of the file, fewer at end-of-file. -/
def jsRead (content : List Nat) (pos len : Nat) : List Nat :=
  (content.drop pos).take len

/-- The chunk loop of `createStreamingResponse`: read at most `chunkSize`
bytes at the current position, stop on a zero-byte read or once the
requested total has been delivered. Returns the emitted chunks in order. -/
def streamChunks (content : List Nat) (pos remaining : Nat) :
    List (List Nat) :=
  if _hr : remaining = 0 then []
  else
    if _hc : (jsRead content pos (min chunkSize remaining)).length = 0 then []
    else
      jsRead content pos (min chunkSize remaining) ::
        streamChunks content
          (pos + (jsRead content pos (min chunkSize remaining)).length)
          (remaining - (jsRead content pos (min chunkSize remaining)).length)
termination_by remaining
decreasing_by
  omega

/-- The full streamed body: the concatenation of all emitted chunks. -/
def streamBody (content : List Nat) (startPos totalToRead : Nat) : List Nat :=
  (streamChunks content startPos totalToRead).flatten

/-- Read boundaries of `createStreamingResponse`: start at the range start
(or 0) and deliver `end - start + 1` bytes (the whole file when no range;
zero bytes for an empty file, where `size - 1` is `-1` in JS). -/
def createStreamingBody (content : List Nat) (rangeRequest : Option RangeSpec)
    (fileStats : Stats) : List Nat :=
  let startPos : Nat := match rangeRequest with
    | some r => r.start
    | none => 0
  let endPos : Int := match rangeRequest with
    | some r => (r.end_ : Int)
    | none => (fileStats.size : Int) - 1
  let totalToRead : Nat := (endPos - (startPos : Int) + 1).toNat
  streamBody content startPos totalToRead

/-- The body of `createBufferedResponse`: for a range, one positional read
into a `contentLength`-sized zero-initialized buffer (bytes past a short
read stay zero); otherwise `readFile`, the whole file. -/
def createBufferedBody (content : List Nat)
    (rangeRequest : Option RangeSpec) : List Nat :=
  match rangeRequest with
  | some r =>
    let rd := jsRead content r.start r.contentLength
    rd ++ List.replicate (r.contentLength - rd.length) 0
  | none => content

/-- Translated from `createStreamingResponse` in `src/response.ts`: open the
file (failure surfaces as the caller's 500), stream the requested span, and
suppress the body for HEAD requests. -/
def createStreamingResponse (fs : FS) (filePath : String)
    (rangeRequest : Option RangeSpec) (fileStats : Stats)
    (isHeadRequest : Bool) (status : Nat)
    (headers : List (String × String)) : HttpResponse :=
  match readBytes fs filePath with
  | none => ⟨500, [], some (.text "Internal Server Error")⟩
  | some content =>
    ⟨status, headers,
      if isHeadRequest then none
      else some (.bytes (createStreamingBody content rangeRequest fileStats))⟩

/-- Translated from `createBufferedResponse` in `src/response.ts`. -/
def createBufferedResponse (fs : FS) (filePath : String)
    (rangeRequest : Option RangeSpec) (isHeadRequest : Bool) (status : Nat)
    (headers : List (String × String)) : HttpResponse :=
  match readBytes fs filePath with
  | none => ⟨500, [], some (.text "Internal Server Error")⟩
  | some content =>
    ⟨status, headers,
      if isHeadRequest then none
      else some (.bytes (createBufferedBody content rangeRequest))⟩

/-- Translated from `handleDirectoryRequest` in `src/fs-utils.ts`: probe the
configured index filenames in order inside the directory and return the
first that stats as a regular file. -/
def handleDirectoryRequest (env : JsEnv) (fs : FS) (filePath : String) :
    List String → Option (String × Stats)
  | [] => none
  | indexFile :: rest =>
    let indexPath := posixResolve env.cwd [filePath, indexFile]
    match statFs fs indexPath with
    | some st => if !st.isDir then some (indexPath, st)
                 else handleDirectoryRequest env fs filePath rest
    | none => handleDirectoryRequest env fs filePath rest

/-! ### The request pipeline

The `createFileServer` entry point of the repository was refactored into the
modules above; the current orchestrating `index.ts` itself is not among the
sources (only its tests and the modules it calls are).  `serverConfig`,
`pipeline` and `handle` below are therefore modelled from the specification:
GET and HEAD only (405 with `Allow: GET, HEAD` otherwise), path resolution →
403, dotfile policy → 404, stat → 404, symlink check, directory index
probing, ETag generation, range negotiation (416 short-circuit), conditional
evaluation (304 short-circuit), pre-compressed encoding negotiation swapping
the served file, and assembly with a streamed or buffered body; HEAD
responses carry the fully computed status and headers with no body. -/

/-- The `etag` option, normalized: `true`/`"strong"` collapse to strong. -/
inductive EtagMode where
  | disabled
  | strong
  | weak
deriving DecidableEq

/-- Normalized `FileServerOptions`, after the construction-time defaulting
of `createFileServer`: `supportedEncodings` is the resolved compression list
(`[]` when compression is off). -/
structure Config where
  root : String
  index : List String := ["index.html"]
  dotfiles : Dotfiles := .ignore
  headersExtra : List (String × String) := []
  streaming : Bool := true
  etagMode : EtagMode := .strong
  supportedEncodings : List String := ["br", "gzip", "deflate"]
  precompressed : Bool := true
  cacheControl : Option CacheControlCfg := none

/-- A request: method, the path-query-fragment part of the URL (the host
never influences `url.pathname`), and a header lookup by lowercase name. -/
structure Req where
  method : String
  target : String
  hdrs : String → Option String

/-- `new URL(request.url).pathname` on the modelled target: everything
before the first `?` or `#`. -/
def extractPathname (target : String) : String :=
  ⟨target.data.takeWhile (fun c => c ≠ '?' ∧ c ≠ '#')⟩

/-- A plain-text terminal response. -/
def mkTextResp (status : Nat) (msg : String)
    (headers : List (String × String) := []) : HttpResponse :=
  ⟨status, headers, some (.text msg)⟩

/-- The serving stage once a regular file and its stats are fixed: ETag,
range, conditional, encoding negotiation, header assembly, body. -/
def etagOf (env : JsEnv) (mode : EtagMode) (st : Stats)
    (filePath : String) : Option String :=
  match mode with
  | .disabled => none
  | .strong => some (generateETag env st filePath false)
  | .weak => some (generateETag env st filePath true)

/-- The encoding-negotiation step: when compression is configured and
pre-compressed lookup is on, the preferred acceptable encoding with an
existing sibling replaces the served file and its metadata. -/
def negotiateEncoding (cfg : Config) (fs : FS) (filePath : String)
    (st : Stats) (acceptEncoding : Option String) :
    String × Stats × Option String :=
  if cfg.supportedEncodings ≠ [] ∧ cfg.precompressed then
    match parseAcceptEncoding acceptEncoding cfg.supportedEncodings with
    | some enc =>
      match findPrecompressedFile fs filePath enc with
      | some compressedPath =>
        match statFs fs compressedPath with
        | some cst => (compressedPath, cst, some enc)
        | none => (filePath, st, none)
      | none => (filePath, st, none)
    | none => (filePath, st, none)
  else (filePath, st, none)

def stageServe (env : JsEnv) (cfg : Config) (fs : FS) (filePath : String)
    (st : Stats) (hdrs : String → Option String) : HttpResponse :=
  let etagValue := etagOf env cfg.etagMode st filePath
  let ranged := handleRangeRequest (hdrs "range") st.size etagValue
    cfg.headersExtra
  match ranged.2 with
  | some r => r
  | none =>
    match handleConditionalRequests env (hdrs "if-none-match")
        (hdrs "if-modified-since") st.mtimeMs etagValue cfg.headersExtra with
    | some r => r
    | none =>
      let rangeRequest := ranged.1
      let negotiated := negotiateEncoding cfg fs filePath st
        (hdrs "accept-encoding")
      let finalFilePath := negotiated.1
      let finalStats := negotiated.2.1
      let contentEncoding := negotiated.2.2
      let status := match rangeRequest with
        | some _ => 206
        | none => 200
      let contentLength : Nat := match rangeRequest with
        | some r => r.contentLength
        | none => finalStats.size
      let responseHeaders :=
        mergeH ([("Content-Type", getMimeType filePath),
          ("Content-Length", Nat.repr contentLength),
          ("Last-Modified", env.fmtDate st.mtimeMs),
          ("Accept-Ranges", "bytes")] ++
          etagEntry etagValue ++
          (match contentEncoding with
           | some enc => [("Content-Encoding", enc)]
           | none => []) ++
          (match getCacheControl env filePath cfg.cacheControl with
           | some cc => [("Cache-Control", cc)]
           | none => []) ++
          (match rangeRequest with
           | some r => [("Content-Range", "bytes " ++ Nat.repr r.start ++
               "-" ++ Nat.repr r.end_ ++ "/" ++ Nat.repr st.size)]
           | none => []))
          cfg.headersExtra
      if cfg.streaming then
        createStreamingResponse fs finalFilePath rangeRequest finalStats
          false status responseHeaders
      else
        createBufferedResponse fs finalFilePath rangeRequest false status
          responseHeaders

/-- Directory stage: a directory target is replaced by its first existing
index file, or the request ends as Not Found. -/
def stageDir (env : JsEnv) (cfg : Config) (fs : FS) (filePath : String)
    (st : Stats) (hdrs : String → Option String) : HttpResponse :=
  if st.isDir then
    match handleDirectoryRequest env fs filePath cfg.index with
    | none => mkTextResp 404 "Not Found"
    | some (indexPath, indexStats) =>
      stageServe env cfg fs indexPath indexStats hdrs
  else
    stageServe env cfg fs filePath st hdrs

/-- Existence and symlink stage: a failed `stat` is Not Found; after the
target is confirmed to exist, any symbolic link (valid or broken) is
rejected with the `checkForSymlink` error. -/
def stageStat (env : JsEnv) (cfg : Config) (fs : FS) (filePath : String)
    (hdrs : String → Option String) : HttpResponse :=
  match statFs fs filePath with
  | none => mkTextResp 404 "Not Found"
  | some st =>
    match checkForSymlink fs filePath with
    | some (code, msg) => mkTextResp code msg
    | none => stageDir env cfg fs filePath st hdrs

/-- The pipeline on a resolved pathname: 403 on a failed resolution, 404 on
a refused dotfile, then the existence/symlink/directory/serving stages. -/
def pipeline (env : JsEnv) (cfg : Config) (fs : FS) (pathname : String)
    (hdrs : String → Option String) : HttpResponse :=
  match resolveFilePath env.cwd pathname cfg.root with
  | none => mkTextResp 403 "Forbidden"
  | some filePath =>
    if shouldServeDotfile filePath cfg.dotfiles then
      stageStat env cfg fs filePath hdrs
    else
      mkTextResp 404 "Not Found"

/-- The request handler `handle(request)`: only GET and HEAD are accepted;
a HEAD request produces the fully computed status and headers of the
corresponding GET with no body. -/
def handle (env : JsEnv) (cfg : Config) (fs : FS) (req : Req) : HttpResponse :=
  if req.method ≠ "GET" ∧ req.method ≠ "HEAD" then
    mkTextResp 405 "Method Not Allowed" [("Allow", "GET, HEAD")]
  else
    let r := pipeline env cfg fs (extractPathname req.target) req.hdrs
    if req.method = "HEAD" then { r with body := none } else r

/-! ### Concrete instances used by witnesses -/

/-- A concrete environment for witnesses. -/
def env0 : JsEnv where
  cwd := "/"
  parseDate := fun _ => none
  fmtDate := fun _ => "Thu, 01 Jan 1970 00:00:00 GMT"
  sha256hex := fun _ => "0123456789abcdef0123456789abcdef"
  regexTest := fun _ _ => false

/-- A concrete environment whose date parser accepts the string `"D"`. -/
def env1 : JsEnv where
  cwd := "/"
  parseDate := fun s => if s = "D" then some 1000 else none
  fmtDate := fun _ => "Thu, 01 Jan 1970 00:00:00 GMT"
  sha256hex := fun _ => "0123456789abcdef0123456789abcdef"
  regexTest := fun _ _ => false

/-- A minimal configuration: root `/srv`, ETags and compression off. -/
def cfgPlain : Config :=
  { root := "/srv", etagMode := .disabled, supportedEncodings := [] }

/-- A filesystem holding one regular file `/srv/f.txt`. -/
def fsOne (content : List Nat) : FS := fun p =>
  if p = "/srv/f.txt" then some (.file content 0) else none

/-- A filesystem holding one dotfile `/srv/.env`. -/
def fsDot : FS := fun p =>
  if p = "/srv/.env" then some (.file [9] 0) else none

/-- A filesystem holding one (valid) symlink `/srv/link`. -/
def fsSym : FS := fun p =>
  if p = "/srv/link" then some (.symlink (some ⟨5, 0, false⟩)) else none

/-- A GET request for a target with no extra headers. -/
def reqGet (t : String) : Req := ⟨"GET", t, fun _ => none⟩

/-- The `Range: bytes=a-b` header rendered from numbers. -/
def rangeHeaderOf (a b : Nat) : String :=
  ⟨"bytes=".data ++ renderNat a ++ '-' :: renderNat b⟩

/-- The header map of `reqRange`. -/
def reqRangeHdrs (a b : Nat) : String → Option String := fun k =>
  if k = "range" then some (rangeHeaderOf a b) else none

/-- A GET request for `/f.txt` carrying `Range: bytes=a-b`. -/
def reqRange (a b : Nat) : Req := ⟨"GET", "/f.txt", reqRangeHdrs a b⟩

/-- A GET request for `/f.txt` carrying a multi-range header. -/
def reqMulti : Req :=
  ⟨"GET", "/f.txt",
    fun k => if k = "range" then some "bytes=0-1,3-4" else none⟩

theorem splitCh_ne_nil (c : Char) (l : List Char) : splitCh c l ≠ [] := by
  cases l with
  | nil => simp [splitCh]
  | cons x xs =>
    simp only [splitCh]
    rcases h : splitCh c xs with _ | ⟨r, rs⟩ <;> simp
    split <;> simp

theorem splitCh_of_not_mem {c : Char} {l : List Char} (h : c ∉ l) :
    splitCh c l = [l] := by
  induction l with
  | nil => rfl
  | cons x xs ih =>
    have hx : x ≠ c := fun hxc => h (hxc ▸ List.mem_cons_self x xs)
    have hxs : c ∉ xs := fun hm => h (List.mem_cons_of_mem x hm)
    simp only [splitCh, ih hxs]
    simp [hx]

theorem splitCh_append_cons (c : Char) {l : List Char} (r : List Char)
    (h : c ∉ l) : splitCh c (l ++ c :: r) = l :: splitCh c r := by
  induction l with
  | nil =>
    simp only [List.nil_append, splitCh]
    rcases hs : splitCh c r with _ | ⟨p, ps⟩
    · exact absurd hs (splitCh_ne_nil c r)
    · simp
  | cons x xs ih =>
    have hx : x ≠ c := fun hxc => h (hxc ▸ List.mem_cons_self x xs)
    have hxs : c ∉ xs := fun hm => h (List.mem_cons_of_mem x hm)
    simp only [List.cons_append, splitCh, List.append_eq]
    rw [ih hxs]
    simp [hx]

theorem splitCh_length_ge_two {c : Char} {l : List Char} (h : c ∈ l) :
    1 < (splitCh c l).length := by
  induction l with
  | nil => cases h
  | cons x xs ih =>
    by_cases hx : x = c
    · subst hx
      simp only [splitCh]
      rcases hs : splitCh x xs with _ | ⟨p, ps⟩
      · exact absurd hs (splitCh_ne_nil x xs)
      · simp
    · have hxs : c ∈ xs := by
        rcases List.mem_cons.mp h with h1 | h1
        · exact absurd h1.symm hx
        · exact h1
      have := ih hxs
      simp only [splitCh]
      rcases hs : splitCh c xs with _ | ⟨p, ps⟩
      · exact absurd hs (splitCh_ne_nil c xs)
      · rw [hs] at this
        simp only [List.length_cons] at this ⊢
        simp [hx]
        omega


theorem digitChar10_isDigit {d : Nat} (h : d < 10) :
    isDigitCh (digitChar10 d) = true := by
  interval_cases d <;> rfl

theorem digitChar10_toNat {d : Nat} (h : d < 10) :
    (digitChar10 d).toNat = 48 + d := by
  interval_cases d <;> rfl

theorem renderNatAux_digits {fuel n : Nat} (h : n < fuel) :
    ∀ c ∈ renderNatAux fuel n, isDigitCh c = true := by
  induction fuel generalizing n with
  | zero => omega
  | succ fuel ih =>
    intro c hc
    simp only [renderNatAux] at hc
    by_cases hn : n < 10
    · rw [if_pos hn] at hc
      simp only [List.mem_singleton] at hc
      exact hc ▸ digitChar10_isDigit hn
    · rw [if_neg hn] at hc
      rcases List.mem_append.mp hc with h1 | h1
      · exact ih (by omega) c h1
      · simp only [List.mem_singleton] at h1
        exact h1 ▸ digitChar10_isDigit (Nat.mod_lt _ (by omega))

theorem renderNatAux_ne_nil {fuel n : Nat} (h : n < fuel) :
    renderNatAux fuel n ≠ [] := by
  cases fuel with
  | zero => omega
  | succ fuel =>
    simp only [renderNatAux]
    split <;> simp

theorem digitsToNat_nil (acc : Nat) : digitsToNat acc [] = acc := rfl

theorem digitsToNat_cons (acc : Nat) (c : Char) (cs : List Char) :
    digitsToNat acc (c :: cs) = digitsToNat (acc * 10 + (c.toNat - 48)) cs :=
  rfl

theorem digitsToNat_append (acc : Nat) (l1 l2 : List Char) :
    digitsToNat acc (l1 ++ l2) = digitsToNat (digitsToNat acc l1) l2 := by
  induction l1 generalizing acc with
  | nil => rfl
  | cons c cs ih => exact ih (acc * 10 + (c.toNat - 48))

theorem digitsToNat_renderNatAux {fuel n : Nat} (acc : Nat) (h : n < fuel) :
    digitsToNat acc (renderNatAux fuel n) =
      acc * 10 ^ (renderNatAux fuel n).length + n := by
  induction fuel generalizing n acc with
  | zero => omega
  | succ fuel ih =>
    by_cases hn : n < 10
    · simp only [renderNatAux, if_pos hn]
      rw [digitsToNat_cons, digitsToNat_nil, digitChar10_toNat hn]
      simp only [List.length_singleton, pow_one]
      omega
    · simp only [renderNatAux, if_neg hn]
      rw [digitsToNat_append, ih acc (by omega), digitsToNat_cons,
        digitsToNat_nil, digitChar10_toNat (Nat.mod_lt _ (by omega)),
        Nat.add_sub_cancel_left, List.length_append, List.length_singleton,
        pow_succ]
      have hdm : 10 * (n / 10) + n % 10 = n := Nat.div_add_mod n 10
      calc (acc * 10 ^ (renderNatAux fuel (n / 10)).length + n / 10) * 10 + n % 10
          = acc * (10 ^ (renderNatAux fuel (n / 10)).length * 10) +
              (10 * (n / 10) + n % 10) := by ring
        _ = acc * (10 ^ (renderNatAux fuel (n / 10)).length * 10) + n := by
            rw [hdm]

theorem renderNat_digits (n : Nat) : ∀ c ∈ renderNat n, isDigitCh c = true :=
  renderNatAux_digits (Nat.lt_succ_self n)

theorem renderNat_ne_nil (n : Nat) : renderNat n ≠ [] :=
  renderNatAux_ne_nil (Nat.lt_succ_self n)

theorem digitsToNat_renderNat (n : Nat) : digitsToNat 0 (renderNat n) = n := by
  rw [renderNat, digitsToNat_renderNatAux 0 (Nat.lt_succ_self n)]
  omega

theorem renderNatAux_length_le {fuel n k : Nat} (h : n < fuel)
    (hk : n < 10 ^ k) (hk1 : 1 ≤ k) : (renderNatAux fuel n).length ≤ k := by
  induction fuel generalizing n k with
  | zero => omega
  | succ fuel ih =>
    by_cases hn : n < 10
    · simp [renderNatAux, if_pos hn]
      omega
    · simp only [renderNatAux, if_neg hn, List.length_append,
        List.length_singleton]
      have hk2 : 2 ≤ k := by
        by_contra hc
        have hk1' : k = 1 := by omega
        subst hk1'
        simp at hk
        omega
      have hdiv : n / 10 < 10 ^ (k - 1) := by
        have hp : 10 ^ k = 10 ^ (k - 1) * 10 := by
          conv_lhs => rw [show k = (k - 1) + 1 by omega]
          rw [pow_succ]
        rw [hp] at hk
        omega
      have := ih (n := n / 10) (k := k - 1) (by omega) hdiv (by omega)
      omega

theorem renderNat_length_le {n k : Nat} (hk : n < 10 ^ k) (hk1 : 1 ≤ k) :
    (renderNat n).length ≤ k :=
  renderNatAux_length_le (Nat.lt_succ_self n) hk hk1

theorem isDigitCh_bounds {c : Char} (h : isDigitCh c = true) :
    48 ≤ c.toNat ∧ c.toNat ≤ 57 := by
  simpa [isDigitCh] using h

theorem isDigitCh_ne {c x : Char} (h : isDigitCh c = true)
    (hx : x.toNat < 48 ∨ 57 < x.toNat) : c ≠ x := by
  intro he
  subst he
  have := isDigitCh_bounds h
  omega

theorem isDigitCh_not_whitespace {c : Char} (h : isDigitCh c = true) :
    c.isWhitespace = false := by
  obtain ⟨h1, h2⟩ := isDigitCh_bounds h
  have e32 : c ≠ ' ' := by
    intro he; subst he; exact absurd h1 (by decide)
  have e9 : c ≠ '\t' := by
    intro he; subst he; exact absurd h1 (by decide)
  have e13 : c ≠ '\r' := by
    intro he; subst he; exact absurd h1 (by decide)
  have e10 : c ≠ '\n' := by
    intro he; subst he; exact absurd h1 (by decide)
  simp [Char.isWhitespace, e32, e9, e13, e10]

theorem jsParseIntL_digits {l : List Char} (hne : l ≠ [])
    (hd : ∀ c ∈ l, isDigitCh c = true) :
    jsParseIntL l = some (digitsToNat 0 l : Int) := by
  rcases hl : l with _ | ⟨c, cs⟩
  · exact absurd hl hne
  subst hl
  have hc : isDigitCh c = true := hd c (List.mem_cons_self c cs)
  have hdrop : (c :: cs).dropWhile Char.isWhitespace = c :: cs := by
    rw [List.dropWhile_cons, isDigitCh_not_whitespace hc]
    simp
  have hcm : c ≠ '-' := isDigitCh_ne hc (by left; decide)
  have hcp : c ≠ '+' := isDigitCh_ne hc (by left; decide)
  have htake : (c :: cs).takeWhile isDigitCh = c :: cs :=
    List.takeWhile_eq_self_iff.mpr hd
  simp only [jsParseIntL, hdrop, if_neg hcm, if_neg hcp, htake]
  simp

theorem jsParseIntL_renderNat (n : Nat) :
    jsParseIntL (renderNat n) = some (n : Int) := by
  rw [jsParseIntL_digits (renderNat_ne_nil n) (renderNat_digits n),
    digitsToNat_renderNat]


theorem splitCh_sep_not_mem (c : Char) (l : List Char) :
    ∀ p ∈ splitCh c l, c ∉ p := by
  induction l with
  | nil =>
    intro p hp
    simp only [splitCh, List.mem_singleton] at hp
    subst hp
    simp
  | cons x xs ih =>
    intro p hp
    simp only [splitCh] at hp
    rcases hs : splitCh c xs with _ | ⟨r, rs⟩
    · exact absurd hs (splitCh_ne_nil c xs)
    · rw [hs] at hp
      dsimp only at hp
      by_cases hx : x = c
      · rw [if_pos hx] at hp
        rcases List.mem_cons.mp hp with rfl | hp2
        · simp
        · exact ih p (hs ▸ hp2)
      · rw [if_neg hx] at hp
        rcases List.mem_cons.mp hp with rfl | hp2
        · intro hmem
          rcases List.mem_cons.mp hmem with rfl | hmem2
          · exact hx rfl
          · exact ih r (hs ▸ List.mem_cons_self r rs) hmem2
        · exact ih p (hs ▸ List.mem_cons_of_mem r hp2)

theorem splitCh_cons_sep (c : Char) (l : List Char) :
    splitCh c (c :: l) = [] :: splitCh c l := by
  simp only [splitCh]
  rcases hs : splitCh c l with _ | ⟨r, rs⟩
  · exact absurd hs (splitCh_ne_nil c l)
  · simp

theorem splitCh_append_sep_end (c : Char) (l : List Char) :
    splitCh c (l ++ [c]) = splitCh c l ++ [[]] := by
  induction l with
  | nil => simp [splitCh]
  | cons x xs ih =>
    simp only [List.cons_append, splitCh, List.append_eq]
    rw [ih]
    rcases hs : splitCh c xs with _ | ⟨r, rs⟩
    · exact absurd hs (splitCh_ne_nil c xs)
    · by_cases hx : x = c <;> simp [hx]

theorem splitCh_joinWith {c : Char} {parts : List (List Char)}
    (hne : parts ≠ []) (h : ∀ p ∈ parts, c ∉ p) :
    splitCh c (joinWith c parts) = parts := by
  induction parts with
  | nil => exact absurd rfl hne
  | cons p rest ih =>
    rcases rest with _ | ⟨q, rs⟩
    · exact splitCh_of_not_mem (h p (List.mem_cons_self p []))
    · show splitCh c (p ++ c :: joinWith c (q :: rs)) = _
      rw [splitCh_append_cons c _ (h p (List.mem_cons_self _ _)),
        ih (by simp) (fun x hx => h x (List.mem_cons_of_mem p hx))]

theorem prefix_joinWith (c : Char) (p : List Char) (rest : List (List Char)) :
    p <+: joinWith c (p :: rest) := by
  rcases rest with _ | ⟨q, rs⟩
  · exact List.prefix_refl p
  · exact ⟨c :: joinWith c (q :: rs), rfl⟩

theorem goAbs_clean {l : List (List Char)} :
    ∀ {acc : List (List Char)}, (∀ x ∈ acc, CleanSeg x) →
      (∀ p ∈ l, '/' ∉ p) → ∀ x ∈ goAbs acc l, CleanSeg x := by
  induction l with
  | nil =>
    intro acc hacc _ x hx
    simp only [goAbs] at hx
    exact hacc x (List.mem_reverse.mp hx)
  | cons s rest ih =>
    intro acc hacc hl x hx
    simp only [goAbs] at hx
    by_cases h1 : s = [] ∨ s = ['.']
    · rw [if_pos h1] at hx
      exact ih hacc (fun p hp => hl p (List.mem_cons_of_mem _ hp)) x hx
    · rw [if_neg h1] at hx
      by_cases h2 : s = ['.', '.']
      · rw [if_pos h2] at hx
        refine ih ?_ (fun p hp => hl p (List.mem_cons_of_mem _ hp)) x hx
        intro y hy
        exact hacc y (List.drop_subset 1 acc hy)
      · rw [if_neg h2] at hx
        refine ih ?_ (fun p hp => hl p (List.mem_cons_of_mem _ hp)) x hx
        intro y hy
        rcases List.mem_cons.mp hy with rfl | hy2
        · push_neg at h1
          exact ⟨h1.1, h1.2, h2, hl y (List.mem_cons_self _ _)⟩
        · exact hacc y hy2

theorem goAbs_of_mixed {l : List (List Char)}
    (hl : ∀ x ∈ l, x = [] ∨ CleanSeg x) :
    ∀ acc, goAbs acc l = acc.reverse ++ l.filter (· ≠ []) := by
  induction l with
  | nil => intro acc; simp [goAbs]
  | cons s rest ih =>
    intro acc
    rcases hl s (List.mem_cons_self s rest) with hs | hs
    · subst hs
      simp only [goAbs, if_pos (Or.inl rfl)]
      rw [ih (fun x hx => hl x (List.mem_cons_of_mem _ hx)) acc]
      simp
    · have h1 : ¬(s = [] ∨ s = ['.']) := by
        push_neg
        exact ⟨hs.1, hs.2.1⟩
      simp only [goAbs, if_neg h1, if_neg hs.2.2.1]
      rw [ih (fun x hx => hl x (List.mem_cons_of_mem _ hx)) (s :: acc)]
      simp [hs.1]

theorem posixResolve_spec (cwd : String) (ps : List String) :
    ∃ L, (∀ x ∈ L, CleanSeg x) ∧
      posixResolve cwd ps = ⟨'/' :: joinWith '/' L⟩ := by
  refine ⟨normSegs (splitCh '/' (chainCh ((cwd :: ps).map String.data)).1),
    ?_, rfl⟩
  intro x hx
  exact goAbs_clean (by simp) (splitCh_sep_not_mem _ _) x hx

theorem normSegs_mixed_clean {L : List (List Char)}
    (hL : ∀ x ∈ L, CleanSeg x) :
    normSegs ([] :: (L ++ [[]])) = L := by
  rw [normSegs, goAbs_of_mixed]
  · simp only [List.reverse_nil, List.nil_append]
    have hfilter : ∀ M : List (List Char), (∀ x ∈ M, CleanSeg x) →
        ([] :: (M ++ [[]])).filter (· ≠ []) = M := by
      intro M hM
      have h1 : ([] :: (M ++ [[]])).filter (· ≠ []) =
          (M ++ [[]]).filter (· ≠ []) := by simp
      rw [h1, List.filter_append]
      have h2 : ([[]] : List (List Char)).filter (· ≠ []) = [] := by simp
      rw [h2, List.append_nil]
      exact List.filter_eq_self.mpr (fun a ha => by simpa using (hM a ha).1)
    exact hfilter L hL
  · intro x hx
    rcases List.mem_cons.mp hx with rfl | hx2
    · exact Or.inl rfl
    · rcases List.mem_append.mp hx2 with hx3 | hx3
      · exact Or.inr (hL x hx3)
      · simp only [List.mem_singleton] at hx3
        exact Or.inl hx3

theorem posixResolve_clean_fixed {L : List (List Char)}
    (hL : ∀ x ∈ L, CleanSeg x) (cwd : String) :
    posixResolve cwd [⟨'/' :: joinWith '/' L⟩] = ⟨'/' :: joinWith '/' L⟩ := by
  have hchain : (chainCh ((cwd :: [(⟨'/' :: joinWith '/' L⟩ : String)]).map
      String.data)).1 = ('/' :: joinWith '/' L) ++ ['/'] := by
    simp [chainCh]
  show (⟨'/' :: joinWith '/' (normSegs (splitCh '/' _))⟩ : String) = _
  rw [hchain]
  have hsplit : splitCh '/' (('/' :: joinWith '/' L) ++ ['/'])
      = [] :: (splitCh '/' (joinWith '/' L) ++ [[]]) := by
    rw [List.cons_append, splitCh_cons_sep, splitCh_append_sep_end]
  rw [hsplit]
  rcases L with _ | ⟨p, rest⟩
  · rfl
  · rw [splitCh_joinWith (by simp) (fun x hx => (hL x hx).2.2.2),
      normSegs_mixed_clean hL]

theorem pathSegsL_clean {L : List (List Char)} (hL : ∀ x ∈ L, CleanSeg x) :
    pathSegsL ⟨'/' :: joinWith '/' L⟩ = L := by
  show (splitCh '/' ('/' :: joinWith '/' L)).filter (· ≠ []) = L
  rw [splitCh_cons_sep]
  rcases L with _ | ⟨p, rest⟩
  · rfl
  · rw [splitCh_joinWith (by simp) (fun x hx => (hL x hx).2.2.2)]
    have h1 : (([] : List Char) :: p :: rest).filter (· ≠ []) =
        (p :: rest).filter (· ≠ []) := by simp
    rw [h1]
    exact List.filter_eq_self.mpr (fun a ha => by simpa using (hL a ha).1)

theorem commonLen_le_left :
    ∀ (a b : List (List Char)), commonLen a b ≤ a.length := by
  intro a
  induction a with
  | nil => intro b; rcases b with _ | ⟨y, ys⟩ <;> simp [commonLen]
  | cons x xs ih =>
    intro b
    rcases b with _ | ⟨y, ys⟩
    · simp [commonLen]
    · simp only [commonLen, List.length_cons]
      by_cases hxy : x = y
      · rw [if_pos hxy]
        have := ih ys
        omega
      · rw [if_neg hxy]
        omega

theorem commonLen_eq_left_prefix :
    ∀ {a b : List (List Char)}, commonLen a b = a.length → a <+: b := by
  intro a
  induction a with
  | nil => intro b _; exact List.nil_prefix
  | cons x xs ih =>
    intro b h
    rcases b with _ | ⟨y, ys⟩
    · simp [commonLen] at h
    · simp only [commonLen, List.length_cons] at h
      by_cases hxy : x = y
      · rw [if_pos hxy] at h
        subst hxy
        exact (List.cons_prefix_cons).mpr ⟨rfl, ih (by omega)⟩
      · rw [if_neg hxy] at h
        omega

theorem posixResolve_data_head (cwd : String) (ps : List String) :
    (posixResolve cwd ps).data.head? = some '/' := rfl

theorem posixResolve_ne {cwd s : String} {ps : List String}
    (h : s.data.head? ≠ some '/') : posixResolve cwd ps ≠ s := by
  intro he
  exact h (he ▸ posixResolve_data_head cwd ps)

theorem resolveFilePath_within_root {cwd pathname root fp : String}
    (h : resolveFilePath cwd pathname root = some fp) :
    pathSegsL (posixResolve cwd [root]) <+: pathSegsL fp := by
  unfold resolveFilePath at h
  rcases hpd : percentDecode pathname with _ | d
  · rw [hpd] at h
    cases h
  rw [hpd] at h
  dsimp only at h
  set relPath : String := ⟨d.data.dropWhile (· = '/')⟩ with hrel
  set absRoot := posixResolve cwd [root] with habs
  set req := posixResolve cwd [absRoot, relPath] with hreq
  by_cases hcond : ['.', '.'].isPrefixOf
      (posixRelative cwd absRoot req).data ∨
      posixResolve cwd [posixRelative cwd absRoot req] =
        posixRelative cwd absRoot req
  · rw [if_pos hcond] at h
    cases h
  · rw [if_neg hcond] at h
    obtain rfl : req = fp := Option.some.inj h
    obtain ⟨Lr, hLr, hrEq⟩ := posixResolve_spec cwd [root]
    obtain ⟨Lt, hLt, htEq⟩ := posixResolve_spec cwd [absRoot, relPath]
    have hf : posixResolve cwd [absRoot] = absRoot := by
      rw [habs, hrEq]
      exact posixResolve_clean_fixed hLr cwd
    have ht : posixResolve cwd [req] = req := by
      rw [hreq, htEq]
      exact posixResolve_clean_fixed hLt cwd
    have hsegF : pathSegsL absRoot = Lr := by
      rw [habs, hrEq]
      exact pathSegsL_clean hLr
    have hsegT : pathSegsL req = Lt := by
      rw [hreq, htEq]
      exact pathSegsL_clean hLt
    by_cases hft : posixResolve cwd [absRoot] = posixResolve cwd [req]
    · have heq : absRoot = req := by rw [← hf, ← ht, hft]
      rw [heq]
    · -- the relative path is the explicit climb-and-descend form
      have hrelEq : posixRelative cwd absRoot req =
          ⟨joinWith '/' (List.replicate
              (Lr.length - commonLen Lr Lt) ['.', '.'] ++
            Lt.drop (commonLen Lr Lt))⟩ := by
        unfold posixRelative
        rw [if_neg hft, hf, ht, hsegF, hsegT]
      have hnp : ¬ ['.', '.'].isPrefixOf (posixRelative cwd absRoot req).data :=
        fun hc => hcond (Or.inl hc)
      have hk : Lr.length ≤ commonLen Lr Lt := by
        by_contra hgt
        push_neg at hgt
        have hpos : 0 < Lr.length - commonLen Lr Lt := by omega
        have hstart : (['.', '.'] : List Char) <+: joinWith '/'
            (List.replicate (Lr.length - commonLen Lr Lt) ['.', '.'] ++
              Lt.drop (commonLen Lr Lt)) := by
          rcases hrep : List.replicate (Lr.length - commonLen Lr Lt)
              (['.', '.'] : List Char) with _ | ⟨x, xs⟩
          · exfalso
            have hlen : (List.replicate (Lr.length - commonLen Lr Lt)
                (['.', '.'] : List Char)).length = 0 := by
              rw [hrep]
              rfl
            rw [List.length_replicate] at hlen
            omega
          · have hx : x = ['.', '.'] :=
              List.eq_of_mem_replicate (hrep ▸ List.mem_cons_self x xs)
            rw [hx, List.cons_append]
            exact prefix_joinWith '/' _ _
        apply hnp
        rw [hrelEq]
        exact List.isPrefixOf_iff_prefix.mpr hstart
      have hkeq : commonLen Lr Lt = Lr.length :=
        Nat.le_antisymm (commonLen_le_left Lr Lt) hk
      have hpre : Lr <+: Lt := commonLen_eq_left_prefix hkeq
      rw [hsegF, hsegT]
      exact hpre


theorem dropWhileP_eq_self_of_all {p : Char → Bool} {l : List Char}
    (h : ∀ c ∈ l, p c = false) : l.dropWhile p = l := by
  cases l with
  | nil => rfl
  | cons c cs =>
    rw [List.dropWhile_cons, h c (List.mem_cons_self c cs)]
    simp

theorem trimCh_eq_self {l : List Char}
    (h : ∀ c ∈ l, c.isWhitespace = false) : trimCh l = l := by
  unfold trimCh
  rw [dropWhileP_eq_self_of_all h, dropWhileP_eq_self_of_all
    (fun c hc => h c (List.mem_reverse.mp hc)), List.reverse_reverse]

theorem replaceFirstL_drops_pat (pat rest : List Char) (hne : pat ≠ []) :
    replaceFirstL pat (pat ++ rest) = rest := by
  rcases pat with _ | ⟨p, ps⟩
  · exact absurd rfl hne
  · show replaceFirstL (p :: ps) (p :: (ps ++ rest)) = rest
    have hpre : (p :: ps).isPrefixOf (p :: (ps ++ rest)) = true :=
      List.isPrefixOf_iff_prefix.mpr ⟨rest, by simp⟩
    simp only [replaceFirstL, hpre]
    simp

theorem mem_replaceFirstL {c : Char} {pat l : List Char} (hc : c ∈ l)
    (hcp : c ∉ pat) : c ∈ replaceFirstL pat l := by
  induction l with
  | nil => cases hc
  | cons x xs ih =>
    simp only [replaceFirstL]
    by_cases hcond : pat ≠ [] ∧ pat.isPrefixOf (x :: xs)
    · rw [if_pos hcond]
      have hsplit : pat ++ (x :: xs).drop pat.length = x :: xs :=
        List.prefix_iff_eq_append.mp (List.isPrefixOf_iff_prefix.mp hcond.2)
      have : c ∈ pat ++ (x :: xs).drop pat.length := by
        rw [hsplit]
        exact hc
      rcases List.mem_append.mp this with h1 | h1
      · exact absurd h1 hcp
      · exact h1
    · rw [if_neg hcond]
      rcases List.mem_cons.mp hc with rfl | h1
      · exact List.mem_cons_self c _
      · exact List.mem_cons_of_mem x (ih h1)

theorem sanitizeHeader_clean {v : String} (hv : v ≠ "")
    (hchars : ∀ c ∈ v.data, c ≠ '\x00' ∧ c ≠ '\r' ∧ c ≠ '\n')
    (hlen : v.length ≤ 8192) : sanitizeHeader (some v) = some v := by
  simp only [sanitizeHeader, if_neg hv]
  have hf : v.data.filter
      (fun c => decide (c ≠ '\x00' ∧ c ≠ '\r' ∧ c ≠ '\n')) = v.data :=
    List.filter_eq_self.mpr (fun a ha => decide_eq_true (hchars a ha))
  have hstr : (⟨v.data.filter
      (fun c => decide (c ≠ '\x00' ∧ c ≠ '\r' ∧ c ≠ '\n'))⟩ : String) = v := by
    rw [hf]
  rw [hstr]
  rw [if_neg (by omega : ¬ 8192 < v.length)]

theorem takeWhileP_append_of_all {p : Char → Bool} {l1 l2 : List Char}
    (h : ∀ c ∈ l1, p c = true) :
    (l1 ++ l2).takeWhile p = l1 ++ l2.takeWhile p := by
  induction l1 with
  | nil => rfl
  | cons x xs ih =>
    rw [List.cons_append, List.takeWhile_cons,
      h x (List.mem_cons_self x xs), ih (fun c hc => h c (List.mem_cons_of_mem x hc))]
    simp

theorem extractPathname_append {p t : String}
    (hp : ∀ c ∈ p.data, c ≠ '?' ∧ c ≠ '#')
    (ht : t = "" ∨ t.data.head? = some '?' ∨ t.data.head? = some '#') :
    extractPathname (p ++ t) = p := by
  show (⟨((p ++ t).data).takeWhile (fun c => decide (c ≠ '?' ∧ c ≠ '#'))⟩ :
    String) = p
  rw [String.data_append, takeWhileP_append_of_all
    (fun c hc => decide_eq_true (hp c hc))]
  have htail : t.data.takeWhile (fun c => decide (c ≠ '?' ∧ c ≠ '#')) = [] := by
    rcases ht with h | h | h
    · rw [h]; rfl
    · rcases hd : t.data with _ | ⟨c, cs⟩
      · rfl
      · rw [hd] at h
        simp only [List.head?_cons, Option.some.injEq] at h
        subst h
        rfl
    · rcases hd : t.data with _ | ⟨c, cs⟩
      · rfl
      · rw [hd] at h
        simp only [List.head?_cons, Option.some.injEq] at h
        subst h
        rfl
  rw [htail, List.append_nil]


/-! ### Claim theorems -/

/-- C2: `handle` accepts exactly the methods GET and HEAD: any other method
yields a 405 with `Allow: GET, HEAD`, and a HEAD request yields the status
and fully computed headers of the corresponding GET with no body. -/
theorem method_gate_head (env : JsEnv) (cfg : Config) (fs : FS) (req : Req) :
    (req.method ≠ "GET" → req.method ≠ "HEAD" →
      (handle env cfg fs req).status = 405 ∧
      getHeader (handle env cfg fs req) "Allow" = some "GET, HEAD") ∧
    ((handle env cfg fs { req with method := "HEAD" }).status =
        (handle env cfg fs { req with method := "GET" }).status ∧
      (handle env cfg fs { req with method := "HEAD" }).headers =
        (handle env cfg fs { req with method := "GET" }).headers ∧
      (handle env cfg fs { req with method := "HEAD" }).body = none) := by
  constructor
  · intro h1 h2
    simp only [handle, if_pos (And.intro h1 h2)]
    exact ⟨rfl, rfl⟩
  · have hH : ¬(("HEAD" : String) ≠ "GET" ∧ ("HEAD" : String) ≠ "HEAD") := by
      simp
    have hG : ¬(("GET" : String) ≠ "GET" ∧ ("GET" : String) ≠ "HEAD") := by
      simp
    simp only [handle, if_neg hH, if_neg hG]
    simp

/-- C2 witness. -/
theorem method_gate_head_witness :
    (handle env0 cfgPlain (fsOne [1, 2, 3])
        ⟨"POST", "/f.txt", fun _ => none⟩).status = 405 ∧
    getHeader (handle env0 cfgPlain (fsOne [1, 2, 3])
        ⟨"POST", "/f.txt", fun _ => none⟩) "Allow" = some "GET, HEAD" :=
  (method_gate_head env0 cfgPlain (fsOne [1, 2, 3])
    ⟨"POST", "/f.txt", fun _ => none⟩).1 (by decide) (by decide)

theorem handle_status_eq_pipeline (env : JsEnv) (cfg : Config) (fs : FS)
    (req : Req) (hm : req.method = "GET" ∨ req.method = "HEAD") :
    (handle env cfg fs req).status =
      (pipeline env cfg fs (extractPathname req.target) req.hdrs).status := by
  have hcond : ¬(req.method ≠ "GET" ∧ req.method ≠ "HEAD") := by
    rcases hm with h | h <;> simp [h]
  simp only [handle, if_neg hcond]
  by_cases hh : req.method = "HEAD" <;> simp [hh]

/-- C1: a request whose percent-decoded path resolves outside the root
(decoding fails, the path relative to the root starts with a
parent-directory segment, or that relative path is absolute — exactly the
cases where `resolveFilePath` reports no valid result) is answered 403, and
conversely every valid `resolveFilePath` result is a path whose segments
extend the resolved root's segments. -/
theorem resolveFilePath_security (env : JsEnv) (cfg : Config) (fs : FS)
    (req : Req) (hm : req.method = "GET" ∨ req.method = "HEAD") :
    (resolveFilePath env.cwd (extractPathname req.target) cfg.root = none →
      (handle env cfg fs req).status = 403) ∧
    (∀ fp, resolveFilePath env.cwd (extractPathname req.target) cfg.root =
        some fp →
      pathSegsL (posixResolve env.cwd [cfg.root]) <+: pathSegsL fp) := by
  constructor
  · intro hres
    rw [handle_status_eq_pipeline env cfg fs req hm]
    simp only [pipeline, hres]
    rfl
  · intro fp hres
    exact resolveFilePath_within_root hres

/-- C1 witness: an invalid traversal is rejected with 403, and a valid
resolution lies within the root. -/
theorem resolveFilePath_security_witness :
    (handle env0 cfgPlain (fsOne [1, 2, 3])
        ⟨"GET", "/%2e%2e/etc/passwd", fun _ => none⟩).status = 403 ∧
    pathSegsL (posixResolve env0.cwd [cfgPlain.root]) <+:
      pathSegsL "/srv/f.txt" := by
  constructor
  · exact (resolveFilePath_security env0 cfgPlain (fsOne [1, 2, 3])
      ⟨"GET", "/%2e%2e/etc/passwd", fun _ => none⟩ (Or.inl rfl)).1 (by decide)
  · exact (resolveFilePath_security env0 cfgPlain (fsOne [1, 2, 3])
      ⟨"GET", "/f.txt", fun _ => none⟩ (Or.inl rfl)).2 "/srv/f.txt" (by decide)

/-- C5: when the resolved path has any segment starting with `.`, the
policies `deny` and `ignore` both answer 404, while `allow` lets the dotfile
check pass. -/
theorem dotfile_policy_404 (env : JsEnv) (cfg : Config) (fs : FS) (req : Req)
    (fp : String) (hm : req.method = "GET" ∨ req.method = "HEAD")
    (hres : resolveFilePath env.cwd (extractPathname req.target) cfg.root =
      some fp)
    (hdot : ((splitCh '/' fp.data).filter (fun part => part ≠ [])).any
      (fun part => ['.'].isPrefixOf part) = true) :
    ((cfg.dotfiles = .deny ∨ cfg.dotfiles = .ignore) →
      (handle env cfg fs req).status = 404) ∧
    shouldServeDotfile fp .allow = true := by
  have hserve : ∀ pol, shouldServeDotfile fp pol =
      (match pol with
       | Dotfiles.allow => true
       | Dotfiles.deny => false
       | Dotfiles.ignore => false) := by
    intro pol
    simp only [shouldServeDotfile, hdot, Bool.not_true, if_neg]
    simp
  constructor
  · intro hpol
    rw [handle_status_eq_pipeline env cfg fs req hm]
    simp only [pipeline, hres]
    have hfalse : shouldServeDotfile fp cfg.dotfiles = false := by
      rcases hpol with h | h <;> rw [h, hserve]
    rw [hfalse]
    simp
    rfl
  · rw [hserve]

/-- C5 witness: `/.env` under policy `deny` is 404, and would pass under
`allow`. -/
theorem dotfile_policy_404_witness :
    (handle env0 { cfgPlain with dotfiles := .deny } fsDot
        (reqGet "/.env")).status = 404 ∧
    shouldServeDotfile "/srv/.env" .allow = true := by
  have h := dotfile_policy_404 env0 { cfgPlain with dotfiles := .deny } fsDot
    (reqGet "/.env") "/srv/.env" (Or.inl rfl) (by decide) (by decide)
  exact ⟨h.1 (Or.inl rfl), h.2⟩

/-- C6: a resolved, existing target that is a symbolic link — valid or
broken — is answered 404 (never 403, never the target's contents). -/
theorem symlink_not_found (env : JsEnv) (cfg : Config) (fs : FS) (req : Req)
    (fp : String) (t : Option Stats)
    (hm : req.method = "GET" ∨ req.method = "HEAD")
    (hres : resolveFilePath env.cwd (extractPathname req.target) cfg.root =
      some fp)
    (hfs : fs fp = some (.symlink t)) :
    (handle env cfg fs req).status = 404 := by
  rw [handle_status_eq_pipeline env cfg fs req hm]
  simp only [pipeline, hres]
  by_cases hdot : shouldServeDotfile fp cfg.dotfiles
  · rw [if_pos hdot]
    simp only [stageStat, statFs, hfs]
    rcases t with _ | st
    · rfl
    · simp only [checkForSymlink, hfs]
      rfl
  · rw [if_neg hdot]
    rfl

/-- C6 witness: a valid symlink `/srv/link` is answered 404. -/
theorem symlink_not_found_witness :
    (handle env0 cfgPlain fsSym (reqGet "/link")).status = 404 :=
  symlink_not_found env0 cfgPlain fsSym (reqGet "/link") "/srv/link"
    (some ⟨5, 0, false⟩) (Or.inl rfl) (by decide) (by decide)

/-- C4: a `Range` header containing multiple comma-separated ranges is
rejected with 416 immediately — `parseRange` signals the multi-range error
for every non-empty resource regardless of the individual ranges, and the
request is answered 416, never with partial content. -/
theorem multi_range_rejected (env : JsEnv) (cfg : Config) (fs : FS)
    (req : Req) (fp : String) (content : List Nat) (mt : Int) (h : String)
    (hm : req.method = "GET" ∨ req.method = "HEAD")
    (hres : resolveFilePath env.cwd (extractPathname req.target) cfg.root =
      some fp)
    (hdot : shouldServeDotfile fp cfg.dotfiles = true)
    (hfs : fs fp = some (.file content mt))
    (hrange : req.hdrs "range" = some h)
    (hsan : sanitizeHeader (some h) = some h)
    (hne : h ≠ "")
    (hcomma : ',' ∈ h.data) :
    (handle env cfg fs req).status = 416 ∧
    (∀ n, n ≠ 0 → parseRange h n = .multiple) := by
  have hmulti : ∀ n, n ≠ 0 → parseRange h n = .multiple := by
    intro n hn
    have hmem : ',' ∈ replaceFirstL "bytes=".data h.data :=
      mem_replaceFirstL hcomma (by decide)
    have hlen := splitCh_length_ge_two hmem
    simp only [parseRange, if_neg hn, if_pos hlen]
  refine ⟨?_, hmulti⟩
  rw [handle_status_eq_pipeline env cfg fs req hm]
  simp only [pipeline, hres, if_pos hdot, stageStat, statFs, hfs,
    checkForSymlink, stageDir, stageServe]
  simp only [handleRangeRequest, hrange, hsan, if_neg hne]
  by_cases hz : content.length = 0
  · rw [show parseRange h (Stats.mk content.length mt false).size = .invalid
      from by simp [parseRange, hz]]
    rfl
  · rw [show parseRange h (Stats.mk content.length mt false).size = .multiple
      from hmulti content.length hz]
    rfl

/-- C4 witness: `bytes=0-1,3-4` against `/srv/f.txt` is answered 416. -/
theorem multi_range_rejected_witness :
    (handle env0 cfgPlain (fsOne [1, 2, 3]) reqMulti).status = 416 ∧
    parseRange "bytes=0-1,3-4" 3 = .multiple := by
  have h := multi_range_rejected env0 cfgPlain (fsOne [1, 2, 3]) reqMulti
    "/srv/f.txt" [1, 2, 3] 0 "bytes=0-1,3-4" (Or.inl rfl) (by decide)
    (by decide) (by decide) (by decide) (by decide) (by decide) (by decide)
  exact ⟨h.1, h.2 3 (by decide)⟩

theorem isDigitCh_not_comma {c : Char} (h : isDigitCh c = true) : c ≠ ',' :=
  isDigitCh_ne h (by left; decide)

theorem isDigitCh_not_dash {c : Char} (h : isDigitCh c = true) : c ≠ '-' :=
  isDigitCh_ne h (by left; decide)

theorem parseRange_closed_clamped {a b s : Nat} (hab : a ≤ b) (has : a < s)
    (hsb : s ≤ b) :
    parseRange (rangeHeaderOf a b) s = .ok ⟨a, s - 1, s - a⟩ := by
  have hs0 : s ≠ 0 := by omega
  have hda := renderNat_digits a
  have hdb := renderNat_digits b
  have hnc : ',' ∉ renderNat a ++ '-' :: renderNat b := by
    intro hc
    rcases List.mem_append.mp hc with h1 | h1
    · exact isDigitCh_not_comma (hda ',' h1) rfl
    · rcases List.mem_cons.mp h1 with h2 | h2
      · cases h2
      · exact isDigitCh_not_comma (hdb ',' h2) rfl
  have hda' : '-' ∉ renderNat a := fun hm =>
    isDigitCh_not_dash (hda '-' hm) rfl
  have hdb' : '-' ∉ renderNat b := fun hm =>
    isDigitCh_not_dash (hdb '-' hm) rfl
  have h3 : trimCh (renderNat a ++ '-' :: renderNat b) =
      renderNat a ++ '-' :: renderNat b := by
    apply trimCh_eq_self
    intro c hc
    rcases List.mem_append.mp hc with h1 | h1
    · exact isDigitCh_not_whitespace (hda c h1)
    · rcases List.mem_cons.mp h1 with h2 | h2
      · subst h2; rfl
      · exact isDigitCh_not_whitespace (hdb c h2)
  have h4 : renderNat a ++ '-' :: renderNat b ≠ [] := by simp
  have h5 : splitCh '-' (renderNat a ++ '-' :: renderNat b) =
      [renderNat a, renderNat b] := by
    rw [splitCh_append_cons '-' _ hda', splitCh_of_not_mem hdb']
  have hsa : renderNat a ≠ [] := renderNat_ne_nil a
  have hsb' : renderNat b ≠ [] := renderNat_ne_nil b
  simp only [parseRange, if_neg hs0]
  rw [show (rangeHeaderOf a b).data =
      "bytes=".data ++ (renderNat a ++ '-' :: renderNat b) from by
    simp [rangeHeaderOf]]
  rw [replaceFirstL_drops_pat _ _ (by decide), splitCh_of_not_mem hnc]
  rw [if_neg (by simp : ¬ 1 < ([renderNat a ++ '-' :: renderNat b] :
    List (List Char)).length)]
  simp only [List.headD]
  rw [h3, if_neg h4, h5]
  simp only [List.headD]
  have hend : ([renderNat a, renderNat b] : List (List Char))[1]? =
      some (renderNat b) := rfl
  rw [hend]
  rw [if_neg (by
    intro hcc
    exact hsa hcc.1)]
  rw [if_neg (by
    intro hcc
    exact hsb' (Option.some.inj hcc.2))]
  rw [if_pos ⟨hsa, fun hcc => hsb' (Option.some.inj hcc)⟩]
  rw [show jsParseIntL (renderNat a) = some (a : Int) from
    jsParseIntL_renderNat a]
  rw [show jsParseInt (some (renderNat b)) = some (b : Int) from
    jsParseIntL_renderNat b]
  simp only []
  rw [if_neg (by omega : ¬((a : Int) < 0 ∨ (b : Int) < 0))]
  simp only [parseRangeFinish]
  rw [if_neg (by omega : ¬((s : Int) ≤ (a : Int) ∨ (b : Int) < (a : Int)))]
  have hmin : min (b : Int) ((s : Int) - 1) = (s : Int) - 1 := by omega
  rw [hmin]
  have e1 : ((a : Int)).toNat = a := by omega
  have e2 : ((s : Int) - 1).toNat = s - 1 := by omega
  have e3 : ((s : Int) - 1 - (a : Int) + 1).toNat = s - a := by omega
  rw [e1, e2, e3]

theorem mergeH_nil (base : List (String × String)) : mergeH base [] = base :=
  rfl

theorem rangeHeaderOf_ne_empty (a b : Nat) : rangeHeaderOf a b ≠ "" := by
  intro he
  have hd := congrArg String.data he
  simp [rangeHeaderOf] at hd

theorem rangeHeaderOf_chars {a b : Nat} :
    ∀ c ∈ (rangeHeaderOf a b).data, c ≠ '\x00' ∧ c ≠ '\r' ∧ c ≠ '\n' := by
  intro c hc
  have hc' : c ∈ "bytes=".data ++ (renderNat a ++ '-' :: renderNat b) := by
    simpa [rangeHeaderOf] using hc
  have hdig : ∀ {x : Char}, isDigitCh x = true →
      x ≠ '\x00' ∧ x ≠ '\r' ∧ x ≠ '\n' := by
    intro x hx
    exact ⟨isDigitCh_ne hx (by left; decide), isDigitCh_ne hx (by left; decide),
      isDigitCh_ne hx (by left; decide)⟩
  rcases List.mem_append.mp hc' with h1 | h1
  · fin_cases h1 <;> exact ⟨by decide, by decide, by decide⟩
  · rcases List.mem_append.mp h1 with h2 | h2
    · exact hdig (renderNat_digits a c h2)
    · rcases List.mem_cons.mp h2 with rfl | h3
      · exact ⟨by decide, by decide, by decide⟩
      · exact hdig (renderNat_digits b c h3)

theorem rangeHeaderOf_length_le {a b : Nat} (ha : a < 2 ^ 53)
    (hb : b < 2 ^ 53) : (rangeHeaderOf a b).length ≤ 8192 := by
  have hpow : (2 : Nat) ^ 53 < 10 ^ 16 := by norm_num
  have hla : (renderNat a).length ≤ 16 :=
    renderNat_length_le (by omega) (by omega)
  have hlb : (renderNat b).length ≤ 16 :=
    renderNat_length_le (by omega) (by omega)
  show (rangeHeaderOf a b).data.length ≤ 8192
  simp only [rangeHeaderOf, List.length_append, List.length_cons,
    List.length_nil]
  omega

/-- C3: a range `bytes=a-b` with `a ≤ b`, `a < s` and `b ≥ s` is not
rejected: `parseRange` clamps the end down to `s - 1` and succeeds with
content length `s - a`, and the request is answered 206 with that
`Content-Length` (the bound `b < 2^53` keeps the header inside both the JS
safe-integer range and the sanitizer's 8 KiB limit). -/
theorem range_end_clamped (a b s : Nat) (hab : a ≤ b) (has : a < s)
    (hsb : s ≤ b) (hb53 : b < 2 ^ 53) :
    parseRange (rangeHeaderOf a b) s = .ok ⟨a, s - 1, s - a⟩ ∧
    ∀ content : List Nat, content.length = s →
      (handle env0 cfgPlain (fsOne content) (reqRange a b)).status = 206 ∧
      getHeader (handle env0 cfgPlain (fsOne content) (reqRange a b))
        "Content-Length" = some (Nat.repr (s - a)) := by
  have hparse := parseRange_closed_clamped hab has hsb
  refine ⟨hparse, ?_⟩
  intro content hlen
  have hsan : sanitizeHeader (some (rangeHeaderOf a b)) =
      some (rangeHeaderOf a b) :=
    sanitizeHeader_clean (rangeHeaderOf_ne_empty a b) rangeHeaderOf_chars
      (rangeHeaderOf_length_le (by omega) hb53)
  have hres : resolveFilePath env0.cwd (extractPathname "/f.txt")
      cfgPlain.root = some "/srv/f.txt" := by decide
  have hgate : ¬(("GET" : String) ≠ "GET" ∧ ("GET" : String) ≠ "HEAD") := by
    simp
  have hh1 : reqRangeHdrs a b "range" = some (rangeHeaderOf a b) := by
    simp [reqRangeHdrs]
  have hh2 : reqRangeHdrs a b "if-none-match" = none := by
    simp [reqRangeHdrs]
  have hh3 : reqRangeHdrs a b "if-modified-since" = none := by
    simp [reqRangeHdrs]
  have hstat : statFs (fsOne content) "/srv/f.txt" =
      some ⟨content.length, 0, false⟩ := rfl
  have hsym : checkForSymlink (fsOne content) "/srv/f.txt" = none := rfl
  have hranged : handleRangeRequest (reqRangeHdrs a b "range") s none [] =
      (some ⟨a, s - 1, s - a⟩, none) := by
    rw [hh1]
    simp only [handleRangeRequest, hsan,
      if_neg (rangeHeaderOf_ne_empty a b), hparse]
  have hcond0 : handleConditionalRequests env0 (reqRangeHdrs a b
      "if-none-match") (reqRangeHdrs a b "if-modified-since") 0 none [] =
      none := by
    rw [hh2, hh3]
    rfl
  simp only [handle, reqRange, if_neg hgate,
    if_neg (by simp : ¬("GET" : String) = "HEAD")]
  simp only [pipeline, hres]
  rw [if_pos (by decide : shouldServeDotfile "/srv/f.txt"
    cfgPlain.dotfiles = true)]
  simp only [stageStat, hstat, hsym, stageDir]
  rw [if_neg (by simp : ¬(Stats.mk content.length 0 false).isDir = true)]
  simp only [stageServe]
  rw [hlen]
  rw [show etagOf env0 cfgPlain.etagMode ⟨s, 0, false⟩ "/srv/f.txt" =
    none from rfl]
  rw [show cfgPlain.headersExtra = [] from rfl]
  rw [hranged]
  simp only []
  rw [hcond0]
  simp only []
  rw [show negotiateEncoding cfgPlain (fsOne content) "/srv/f.txt"
    ⟨s, 0, false⟩ (reqRangeHdrs a b "accept-encoding") =
    ("/srv/f.txt", ⟨s, 0, false⟩, none) from rfl]
  constructor
  · rfl
  · rfl

/-- C3 witness: `bytes=0-5` against a 3-byte resource clamps to `0-2` and is
served 206 with `Content-Length: 3`. -/
theorem range_end_clamped_witness :
    parseRange (rangeHeaderOf 0 5) 3 = .ok ⟨0, 2, 3⟩ ∧
    (handle env0 cfgPlain (fsOne [9, 8, 7]) (reqRange 0 5)).status = 206 ∧
    getHeader (handle env0 cfgPlain (fsOne [9, 8, 7]) (reqRange 0 5))
      "Content-Length" = some (Nat.repr 3) := by
  have h := range_end_clamped 0 5 3 (by decide) (by decide) (by decide)
    (by decide)
  exact ⟨h.1, (h.2 [9, 8, 7] (by decide)).1, (h.2 [9, 8, 7] (by decide)).2⟩

/-- C7 (amended): for a request whose `If-None-Match` header is non-empty
after header sanitization, `If-Modified-Since` has no effect, the result is
a 304 exactly when the comma-separated token list contains `*` or the exact
current ETag (and only when an ETag exists), and any such response has
status 304. -/
theorem conditional_inm_authoritative (env : JsEnv) (inm s : String)
    (ims ims' : Option String) (mt : Int) (etagV : Option String)
    (custom : List (String × String))
    (hs : sanitizeHeader (some inm) = some s) (hs2 : s ≠ "") :
    handleConditionalRequests env (some inm) ims mt etagV custom =
      handleConditionalRequests env (some inm) ims' mt etagV custom ∧
    (handleConditionalRequests env (some inm) ims mt etagV custom).isSome =
      (match etagV with
       | some e => decide (e ≠ "") && etagMatches s e
       | none => false) ∧
    (∀ r, handleConditionalRequests env (some inm) ims mt etagV custom =
      some r → r.status = 304) := by
  have htr2 : jsTruthy (some s) = true := by
    simpa [jsTruthy] using hs2
  have hcondIMS : ∀ (X : Option String) (etagX : Option String),
      condIMS env (some s) X mt etagX custom = none := by
    intro X etagX
    simp [condIMS, htr2]
  simp only [handleConditionalRequests, hs]
  rcases etagV with _ | e
  · simp only [hcondIMS]
    exact ⟨trivial, rfl, fun r hr => by cases hr⟩
  · by_cases he : e = ""
    · subst he
      have hcc : ¬(s ≠ "" ∧ ("" : String) ≠ "") := by simp
      simp only [if_neg hcc, hcondIMS]
      exact ⟨trivial, by simp, fun r hr => by cases hr⟩
    · by_cases hmatch : etagMatches s e = true
      · simp only [if_pos (And.intro hs2 he), if_pos hmatch]
        refine ⟨trivial, ?_, fun r hr => by cases hr; rfl⟩
        simp [hmatch, he]
      · simp only [if_pos (And.intro hs2 he), if_neg hmatch, hcondIMS]
        have hmatch' : etagMatches s e = false := by
          revert hmatch
          cases etagMatches s e <;> simp
        exact ⟨trivial, by simp [hmatch'], fun r hr => by cases hr⟩

/-- C7 counterexample: a request carrying `If-None-Match: "\r"` (whose
sanitized value is empty, hence falsy) is still influenced by
`If-Modified-Since` — with a qualifying date the conditional evaluator
returns a 304 even though the token list matches neither `*` nor the ETag,
so `If-Modified-Since` is not "ignored entirely" for every request carrying
an `If-None-Match` header. -/
theorem conditional_precedence_counterexample :
    handleConditionalRequests env1 (some "\x0d") (some "D") 0
        (some "\"e\"") [] ≠
      handleConditionalRequests env1 (some "\x0d") none 0 (some "\"e\"") [] ∧
    (handleConditionalRequests env1 (some "\x0d") (some "D") 0
        (some "\"e\"") []).map (fun r => r.status) = some 304 ∧
    etagMatches "\x0d" "\"e\"" = false := by
  refine ⟨?_, rfl, rfl⟩
  decide

/-- C7 witness for the amended theorem: a non-empty `If-None-Match` makes
`If-Modified-Since` irrelevant even when its date would qualify. -/
theorem conditional_inm_authoritative_witness :
    handleConditionalRequests env1 (some "\"x\"") (some "D") 0
        (some "\"e\"") [] =
      handleConditionalRequests env1 (some "\"x\"") none 0 (some "\"e\"") [] ∧
    (handleConditionalRequests env1 (some "\"x\"") (some "D") 0
        (some "\"e\"") []).isSome = false := by
  have h := conditional_inm_authoritative env1 "\"x\"" "\"x\"" (some "D")
    none 0 (some "\"e\"") [] (by decide) (by decide)
  exact ⟨h.1, by rw [h.2.1]; decide⟩

/-- C8: the failing input for the zero-quality rule — the source computes
`parseFloat(q.replace("q=", "")) || 1`, so an explicit `q=0` is coerced to
quality 1 and `gzip;q=0` outranks `br;q=1.0` by original order, returning
`gzip` where the specification (and the repository's own test "should
ignore encodings with zero quality") requires `br`. -/
theorem accept_encoding_q0_eval :
    parseAcceptEncoding (some "gzip;q=0, br;q=1.0") ["br", "gzip", "deflate"]
      = some "gzip" ∧
    parseAcceptEncoding (some "gzip;q=0.0, deflate") ["br", "gzip", "deflate"]
      = some "gzip" := by
  constructor <;> decide

/-- Concatenating the chunks emitted by the streaming loop reproduces the
requested span whenever the span lies within the file. -/
theorem streamChunks_flatten (content : List Nat) :
    ∀ remaining pos, pos + remaining ≤ content.length →
      (streamChunks content pos remaining).flatten
        = (content.drop pos).take remaining := by
  intro remaining
  induction remaining using Nat.strong_induction_on with
  | _ remaining ih =>
    intro pos hle
    by_cases hr : remaining = 0
    · subst hr
      rw [streamChunks]
      simp
    · have hck : 0 < chunkSize := by decide
      have hm : min chunkSize remaining ≤ remaining := Nat.min_le_right _ _
      have hm0 : 0 < min chunkSize remaining := by omega
      have hlen : (jsRead content pos (min chunkSize remaining)).length
          = min chunkSize remaining := by
        rw [jsRead, List.length_take, List.length_drop]
        omega
      rw [streamChunks, dif_neg hr, dif_neg (by rw [hlen]; omega),
        List.flatten_cons, hlen,
        ih (remaining - min chunkSize remaining) (by omega)
          (pos + min chunkSize remaining) (by omega)]
      have hrem : remaining
          = min chunkSize remaining + (remaining - min chunkSize remaining) := by
        omega
      conv_rhs => rw [hrem, List.take_add]
      rw [jsRead, List.drop_drop, Nat.add_comm pos (min chunkSize remaining)]

/-- C9: for every readable file and every valid range (or no range at all),
the streaming strategy and the buffered strategy produce byte-identical
responses: same status, same headers, and the same body bytes. -/
theorem stream_buffered_agree (fs : FS) (filePath : String)
    (content : List Nat) (st : Stats) (rr : Option RangeSpec)
    (isHead : Bool) (status : Nat) (hdrs : List (String × String))
    (hread : readBytes fs filePath = some content)
    (hsize : st.size = content.length)
    (hvalid : ∀ r, rr = some r → r.start ≤ r.end_ ∧
        r.end_ < content.length ∧ r.contentLength = r.end_ - r.start + 1) :
    createStreamingResponse fs filePath rr st isHead status hdrs
      = createBufferedResponse fs filePath rr isHead status hdrs := by
  simp only [createStreamingResponse, createBufferedResponse, hread]
  suffices h : createStreamingBody content rr st
      = createBufferedBody content rr by
    rw [h]
  cases rr with
  | none =>
    simp only [createStreamingBody, createBufferedBody, streamBody]
    have h1 : ((st.size : Int) - 1 - ((0 : Nat) : Int) + 1).toNat
        = content.length := by
      rw [hsize]; omega
    rw [h1, streamChunks_flatten content content.length 0 (by omega)]
    simp
  | some r =>
    obtain ⟨h1, h2, h3⟩ := hvalid r rfl
    simp only [createStreamingBody, createBufferedBody, streamBody]
    have ht : ((r.end_ : Int) - ((r.start : Nat) : Int) + 1).toNat
        = r.end_ - r.start + 1 := by
      omega
    rw [ht, streamChunks_flatten content (r.end_ - r.start + 1) r.start
      (by omega), h3, jsRead]
    have hz : r.end_ - r.start + 1
        - ((content.drop r.start).take (r.end_ - r.start + 1)).length = 0 := by
      rw [List.length_take, List.length_drop]; omega
    rw [hz]
    simp

/-- C9 witness: on the file bytes `[5, 6, 7, 8]` with range `1-2`, the
streaming response equals the buffered response. -/
theorem stream_buffered_agree_witness :
    createStreamingResponse (fsOne [5, 6, 7, 8]) "/srv/f.txt"
        (some ⟨1, 2, 2⟩) ⟨4, 0, false⟩ false 206 []
      = createBufferedResponse (fsOne [5, 6, 7, 8]) "/srv/f.txt"
        (some ⟨1, 2, 2⟩) false 206 [] := by
  refine stream_buffered_agree (fsOne [5, 6, 7, 8]) "/srv/f.txt" [5, 6, 7, 8]
    ⟨4, 0, false⟩ (some ⟨1, 2, 2⟩) false 206 [] (by decide) (by decide) ?_
  intro r hr
  cases hr
  exact ⟨by decide, by decide, by decide⟩

/-- C10: only the pathname of the request target influences the response:
two requests identical except for the query string and/or fragment of their
target produce the same response over the same filesystem. -/
theorem query_fragment_immaterial (env : JsEnv) (cfg : Config) (fs : FS)
    (m p t1 t2 : String) (hs : String → Option String)
    (hp : ∀ c ∈ p.data, c ≠ '?' ∧ c ≠ '#')
    (h1 : t1 = "" ∨ t1.data.head? = some '?' ∨ t1.data.head? = some '#')
    (h2 : t2 = "" ∨ t2.data.head? = some '?' ∨ t2.data.head? = some '#') :
    handle env cfg fs ⟨m, p ++ t1, hs⟩ = handle env cfg fs ⟨m, p ++ t2, hs⟩ := by
  simp only [handle]
  rw [extractPathname_append hp h1, extractPathname_append hp h2]

/-- C10 witness: `/f.txt?x` and `/f.txt#y` yield the same response. -/
theorem query_fragment_immaterial_witness :
    handle env0 cfgPlain (fsOne [1, 2])
        ⟨"GET", "/f.txt" ++ "?x", fun _ => none⟩
      = handle env0 cfgPlain (fsOne [1, 2])
        ⟨"GET", "/f.txt" ++ "#y", fun _ => none⟩ := by
  exact query_fragment_immaterial env0 cfgPlain (fsOne [1, 2]) "GET" "/f.txt"
    "?x" "#y" (fun _ => none) (by decide)
    (Or.inr (Or.inl (by decide))) (Or.inr (Or.inr (by decide)))
